import Mathlib

/-!
# Modular-mode decision trees (`lib/jxl/modular/encoding/ma.h`) and
# x64 topology fields (`lib/jxl/base/arch_specific.cc`)

A shallow embedding of the inline code of `ma.h` (`PropertyDecisionNode`,
`TreeSamples`) and of `X64_Topology::Field` / `X64_Topology::Detect`. The tree
builder and the tree codec, which `ma.h` only declares, are modelled from
their specification.

Conventions.
* C++ machine integers are `Int` (signed) or `Nat` (unsigned); every
  conversion between integer types and every unsigned operation that can leave
  the type's range is written with an explicit reduction (`toInt16`,
  `toInt32`, `toUInt32`, `toSizeT`, `% 4294967296`).
* `std::vector<T>` is `List T`; an unchecked `operator[]` returns `Option`,
  `none` standing for an out-of-bounds access.
* `JXL_ASSERT` aborts the process: functions that contain one return
  `Except Fault`.
* Arithmetic in a signed type whose result does not fit the type is undefined
  behaviour: functions that contain such a step return `Except Fault`, with
  `Fault.signedOverflow` where the result does not fit.
-/

namespace jxl

/-! ## Machine integers -/

/-- Conversion to `int16_t` (two's complement). -/
def toInt16 (x : Int) : Int := (x + 32768) % 65536 - 32768

/-- Conversion to `int32_t` (two's complement). -/
def toInt32 (x : Int) : Int := (x + 2147483648) % 4294967296 - 2147483648

/-- Conversion to `uint32_t`. -/
def toUInt32 (x : Int) : Nat := (x % 4294967296).toNat

/-- Conversion to `size_t` (64 bits). -/
def toSizeT (x : Int) : Nat := (x % 18446744073709551616).toNat

/-- Smallest value of `int32_t`. -/
def INT32_MIN : Int := -2147483648

/-- Largest value of `int32_t`. -/
def INT32_MAX : Int := 2147483647

/-- Ways in which a call can leave defined behaviour. -/
inductive Fault where
  | assertion
  | outOfBounds
  | signedOverflow
  deriving DecidableEq, Repr

/-! ## `Predictor` -/

/-- Modelled from the spec: the enumeration `Predictor` is declared in
`lib/jxl/modular/options.h`, which is not part of the sources at hand. The
spec describes it as a small closed enumeration of prediction formulas used as
an opaque tag; `ma.h` names only `Predictor::Zero`. Every other enumerator is
represented by its tag number. -/
inductive Predictor where
  | Zero
  | other (tag : Nat)
  deriving DecidableEq, Repr

/-! ## `TreeSamples` -/

/-- The private struct `TreeSamples::ResidualToken`. -/
structure ResidualToken where
  tok : Nat
  nbits : Nat
  deriving DecidableEq, Repr

/-- The data members of `TreeSamples`, in declaration order. -/
structure TreeSamples where
  residuals : List (List ResidualToken)
  sample_counts : List Nat
  props : List (List Nat)
  compact_properties : List (List Int)
  props_to_use : List Nat
  predictors : List Predictor
  property_mapping : List (List Nat)
  num_samples : Nat
  dedup_table_ : List Nat
  deriving DecidableEq, Repr

/-- The constant `TreeSamples::kPropertyRange`. -/
def kPropertyRange : Int := 511

/-- `std::find(v.begin(), v.end(), value) - v.begin()`: the position of the
first element equal to `value`, or `v.size()` when there is none. -/
def findOffset {α : Type} [DecidableEq α] (value : α) : List α → Nat
  | [] => 0
  | x :: xs => if x = value then 0 else findOffset value xs + 1

namespace TreeSamples

/-- The index computed by the first statement of `QuantizeProperty`:
`std::min(std::max(v, -kPropertyRange), kPropertyRange) + kPropertyRange`,
evaluated in `int` and stored back into the `pixel_type` variable `v`. -/
def QuantizeIndex (v : Int) : Int :=
  toInt32 (min (max v (-kPropertyRange)) kPropertyRange + kPropertyRange)

/-- `TreeSamples::QuantizeProperty`: `property_mapping[prop][v]` at the clamped
and shifted index; the `int` index is converted to `size_t` by `operator[]`. -/
def QuantizeProperty (ts : TreeSamples) (prop : Nat) (v : Int) : Option Nat :=
  (ts.property_mapping[prop]?).bind fun row => row[toSizeT (QuantizeIndex v)]?

/-- `TreeSamples::NumDistinctSamples`: `sample_counts.size()`. -/
def NumDistinctSamples (ts : TreeSamples) : Nat := ts.sample_counts.length

/-- `TreeSamples::NumSamples`: the member `num_samples`. -/
def NumSamples (ts : TreeSamples) : Nat := ts.num_samples

/-- `TreeSamples::Token`: `residuals[pred][i].tok`. -/
def Token (ts : TreeSamples) (pred i : Nat) : Option Nat :=
  (ts.residuals[pred]?).bind fun col => (col[i]?).map fun r => r.tok

/-- `TreeSamples::NBits`: `residuals[pred][i].nbits`. -/
def NBits (ts : TreeSamples) (pred i : Nat) : Option Nat :=
  (ts.residuals[pred]?).bind fun col => (col[i]?).map fun r => r.nbits

/-- `TreeSamples::Count`: `sample_counts[i]`. -/
def Count (ts : TreeSamples) (i : Nat) : Option Nat := ts.sample_counts[i]?

/-- `TreeSamples::NumPropertyValues`:
`compact_properties[property_index].size() + 1`. A vector of `int` holds fewer
than `2^62` elements, so the `size_t` addition does not wrap. -/
def NumPropertyValues (ts : TreeSamples) (property_index : Nat) : Option Nat :=
  (ts.compact_properties[property_index]?).map fun row => row.length + 1

/-- `TreeSamples::Property`: `props[property_index][i]`. -/
def Property (ts : TreeSamples) (property_index i : Nat) : Option Nat :=
  (ts.props[property_index]?).bind fun col => col[i]?

/-- `TreeSamples::UnquantizeProperty`:
`JXL_ASSERT(quant < compact_properties[property_index].size())` followed by
`return compact_properties[property_index][quant]`. -/
def UnquantizeProperty (ts : TreeSamples) (property_index quant : Nat) :
    Except Fault Int :=
  match ts.compact_properties[property_index]? with
  | none => .error .outOfBounds
  | some row =>
    if quant < row.length then
      match row[quant]? with
      | some x => .ok x
      | none => .error .outOfBounds
    else .error .assertion

/-- `TreeSamples::AllSamplesDone`:
`dedup_table_ = std::vector<uint32_t>()`. -/
def AllSamplesDone (ts : TreeSamples) : TreeSamples :=
  { ts with dedup_table_ := [] }

/-- `TreeSamples::NumPredictors`: `predictors.size()`. -/
def NumPredictors (ts : TreeSamples) : Nat := ts.predictors.length

/-- `TreeSamples::NumProperties`: `props_to_use.size()`. -/
def NumProperties (ts : TreeSamples) : Nat := ts.props_to_use.length

/-- `TreeSamples::PredictorIndex`: `std::find` over `predictors`, then
`JXL_DASSERT(predictor_elem != predictors.end())`, then the offset of the
iterator. `JXL_DASSERT` is a macro of `status.h`, which is not at hand;
`dassert` says whether the build compiles it in. -/
def PredictorIndex (ts : TreeSamples) (dassert : Bool) (predictor : Predictor) :
    Except Fault Nat :=
  let predictor_elem := findOffset predictor ts.predictors
  if dassert = true ∧ predictor_elem = ts.predictors.length then .error .assertion
  else .ok predictor_elem

/-- `TreeSamples::PropertyIndex`: `std::find` over `props_to_use`, then
`JXL_DASSERT(property_elem != props_to_use.end())`, then the offset of the
iterator (`dassert` as for `PredictorIndex`). -/
def PropertyIndex (ts : TreeSamples) (dassert : Bool) (property : Nat) :
    Except Fault Nat :=
  let property_elem := findOffset property ts.props_to_use
  if dassert = true ∧ property_elem = ts.props_to_use.length then .error .assertion
  else .ok property_elem

/-- `TreeSamples::PredictorFromIndex`: `JXL_DASSERT(index < predictors.size())`
followed by `return predictors[index]` (`dassert` as for `PredictorIndex`). -/
def PredictorFromIndex (ts : TreeSamples) (dassert : Bool) (index : Nat) :
    Except Fault Predictor :=
  if dassert = true ∧ ¬ index < ts.predictors.length then .error .assertion
  else
    match ts.predictors[index]? with
    | some predictor => .ok predictor
    | none => .error .outOfBounds

/-- `TreeSamples::PropertyFromIndex`: `JXL_DASSERT(index < props_to_use.size())`
followed by `return props_to_use[index]` (`dassert` as for
`PredictorIndex`). -/
def PropertyFromIndex (ts : TreeSamples) (dassert : Bool) (index : Nat) :
    Except Fault Nat :=
  if dassert = true ∧ ¬ index < ts.props_to_use.length then .error .assertion
  else
    match ts.props_to_use[index]? with
    | some property => .ok property
    | none => .error .outOfBounds

end TreeSamples

/-! ## `PropertyDecisionNode` -/

/-- The data members of `PropertyDecisionNode`. `PropertyVal` is a typedef from
a header that is not at hand; it is taken to be `int32_t`, the width
`pixel_type` values have. -/
structure PropertyDecisionNode where
  splitval : Int
  property : Int
  lchild : Nat
  rchild : Nat
  predictor : Predictor
  predictor_offset : Int
  multiplier : Nat
  deriving DecidableEq, Repr

namespace PropertyDecisionNode

/-- The seven-argument constructor. The `int` arguments `p`, `split_val`,
`lchild` and `rchild` are converted to the member types `int16_t`,
`PropertyVal`, `uint32_t` and `uint32_t`; the other three arguments already
have the member type. -/
def init (p split_val lchild rchild : Int) (predictor : Predictor)
    (predictor_offset : Int) (multiplier : Nat) : PropertyDecisionNode where
  splitval := toInt32 split_val
  property := toInt16 p
  lchild := toUInt32 lchild
  rchild := toUInt32 rchild
  predictor := predictor
  predictor_offset := predictor_offset
  multiplier := multiplier

/-- The default constructor. -/
def default : PropertyDecisionNode where
  splitval := 0
  property := -1
  lchild := 0
  rchild := 0
  predictor := Predictor.Zero
  predictor_offset := 0
  multiplier := 1

/-- `PropertyDecisionNode::Leaf(predictor, offset, multiplier)`. -/
def Leaf (predictor : Predictor) (offset : Int) (multiplier : Nat) :
    PropertyDecisionNode :=
  init (-1) 0 0 0 predictor offset multiplier

/-- `PropertyDecisionNode::Leaf(predictor)`: the default arguments
`offset = 0` and `multiplier = 1` are filled in. -/
def LeafDefault (predictor : Predictor) : PropertyDecisionNode :=
  Leaf predictor 0 1

/-- `PropertyDecisionNode::Split(p, split_val, lchild, rchild)`. The statement
`if (rchild == -1) rchild = lchild + 1;` adds in `int`: when the sum does not
fit an `int` the behaviour is undefined and no node is returned. -/
def Split (p split_val lchild rchild : Int) : Except Fault PropertyDecisionNode :=
  if rchild = -1 then
    if toInt32 (lchild + 1) = lchild + 1 then
      .ok (init p split_val lchild (lchild + 1) Predictor.Zero 0 1)
    else .error .signedOverflow
  else .ok (init p split_val lchild rchild Predictor.Zero 0 1)

/-- `PropertyDecisionNode::Split(p, split_val, lchild)`: the default argument
`rchild = -1` is filled in. -/
def SplitDefault (p split_val lchild : Int) : Except Fault PropertyDecisionNode :=
  Split p split_val lchild (-1)

end PropertyDecisionNode

/-! ## The tree, its builder and its codec

`ma.h` declares `Tree`, `TokenizeTree`, `DecodeTree` and `ComputeBestTree`;
their bodies are in a translation unit that is not at hand. The definitions of
this section are modelled from the specification of the tree builder and the
tree codec. -/

/-- `using Tree = std::vector<PropertyDecisionNode>`. -/
abbrev Tree := List PropertyDecisionNode

/-- The constant `kNumTreeContexts`. -/
def kNumTreeContexts : Nat := 6

/-- Modelled from the spec: the struct `Token` of the entropy coder
(`entropy_coder.h`, not at hand). The spec calls the stream "an ordered
sequence of symbolic tokens", each assigned "to one of a fixed small number of
entropy-coding contexts ... chosen by token role"; a token is its context and
its symbolic value. -/
structure Token where
  context : Nat
  value : Int
  deriving DecidableEq, Repr

/-- Modelled from the spec: the six token roles, one context each: the node's
"kind (leaf/split)" and the payload "(property id, threshold, predictor id,
offset, multiplier)". The numbering of the roles is not in the spec. -/
def kKindContext : Nat := 0

/-- Context of property-id tokens (see `kKindContext`). -/
def kPropertyContext : Nat := 1

/-- Context of threshold tokens (see `kKindContext`). -/
def kSplitValContext : Nat := 2

/-- Context of predictor-id tokens (see `kKindContext`). -/
def kPredictorContext : Nat := 3

/-- Context of offset tokens (see `kKindContext`). -/
def kOffsetContext : Nat := 4

/-- Context of multiplier tokens (see `kKindContext`). -/
def kMultiplierContext : Nat := 5

/-- Modelled from the spec: the "predictor id" that stands for a predictor in
the token stream (the numeric value of the enumerator, `options.h` not at
hand). -/
def Predictor.id : Predictor → Nat
  | .Zero => 0
  | .other tag => tag + 1

/-- Modelled from the spec: the predictor a predictor id stands for, inverse of
`Predictor.id`. -/
def Predictor.ofId : Nat → Predictor
  | 0 => .Zero
  | tag + 1 => .other tag

/-- Modelled from the spec: the outcome of the greedy search of
`ComputeBestTree` (section 4.4, steps 1-3 and 5). Whether a partition becomes a
leaf, with which predictor, offset and multiplier, or a split, on which
property and threshold, is decided by comparing entropy-coding costs, which the
spec treats as a supplied oracle; a `TreePlan` records these decisions for a
partition and, recursively, for its two sub-partitions. -/
inductive TreePlan where
  | leaf (predictor : Predictor) (offset : Int) (multiplier : Nat)
  | split (property threshold : Int) (left right : TreePlan)
  deriving DecidableEq, Repr

namespace TreePlan

/-- Number of decisions (tree nodes) of a plan. -/
def size : TreePlan → Nat
  | leaf _ _ _ => 1
  | split _ _ l r => 1 + l.size + r.size

/-- The values of a plan fit the C++ types that carry them: property ids are
non-negative `int16_t`, thresholds are `PropertyVal`, offsets are `int64_t`,
multipliers are `uint32_t`. -/
def valid : TreePlan → Bool
  | leaf _ offset multiplier =>
    decide (-9223372036854775808 ≤ offset) && decide (offset ≤ 9223372036854775807) &&
      decide (multiplier < 4294967296)
  | split property threshold l r =>
    decide (0 ≤ property) && decide (property ≤ 32767) &&
      decide (INT32_MIN ≤ threshold) && decide (threshold ≤ INT32_MAX) &&
      l.valid && r.valid

/-- The leaf a plan assigns to a property vector, by the evaluation rule of the
spec (left when the property value is `<=` the threshold). -/
def eval (props : List Int) : TreePlan → Option (Predictor × Int × Nat)
  | leaf predictor offset multiplier => some (predictor, offset, multiplier)
  | split property threshold l r =>
    match props[property.toNat]? with
    | none => none
    | some v => if v ≤ threshold then l.eval props else r.eval props

end TreePlan

/-- Modelled from the spec: the split node that the builder and the codec
append, carrying "a property id, an integer threshold ... and indices of
left/right child nodes" (section 3). It is built with the seven-argument
constructor of `PropertyDecisionNode` and the neutral leaf payload; the child
indices are positions in the node list. -/
def SplitNode (property threshold : Int) (lchild rchild : Nat) : PropertyDecisionNode :=
  PropertyDecisionNode.init property threshold lchild rchild Predictor.Zero 0 1

/-- Modelled from the spec: step 4 of `ComputeBestTree` (section 4.4), the
part of the builder that lays out the node list: "emit a split node, ...
recurse into each [sub-partition], appending their resulting subtrees' nodes
to the shared node list; record child indices". A leaf decision appends a leaf
node. `tree` is the shared node list so far. -/
def ComputeBestTreeFrom : TreePlan → Tree → Tree
  | .leaf predictor offset multiplier, tree =>
    tree ++ [PropertyDecisionNode.Leaf predictor offset multiplier]
  | .split property threshold l r, tree =>
    let pos := tree.length
    let tree := tree ++ [PropertyDecisionNode.default]
    let lchild := tree.length
    let tree := ComputeBestTreeFrom l tree
    let rchild := tree.length
    let tree := ComputeBestTreeFrom r tree
    tree.set pos (SplitNode property threshold lchild rchild)

/-- Modelled from the spec: `ComputeBestTree`, which starts from an empty node
list at the partition of all samples. -/
def ComputeBestTree (plan : TreePlan) : Tree := ComputeBestTreeFrom plan []

/-- Modelled from the spec: the evaluation rule of section 3, "route to the
left child if the pixel's actual property value is <= threshold, else right
child", applied from node `pos` until a leaf (`property = -1`) is reached; the
result is the leaf's predictor, offset and multiplier. `fuel` bounds the
number of nodes visited; reading outside the tree or the property vector gives
`none`. -/
def Classify (tree : Tree) (props : List Int) :
    Nat → Nat → Option (Predictor × Int × Nat)
  | 0, _ => none
  | fuel + 1, pos =>
    match tree[pos]? with
    | none => none
    | some node =>
      if node.property = -1 then
        some (node.predictor, node.predictor_offset, node.multiplier)
      else
        match props[node.property.toNat]? with
        | none => none
        | some v =>
          if v ≤ node.splitval then Classify tree props fuel node.lchild
          else Classify tree props fuel node.rchild

/-- Modelled from the spec: the tokens `TokenizeTree` emits for a leaf, its
kind (0) and its payload "predictor id, offset, multiplier". -/
def LeafTokens (node : PropertyDecisionNode) : List Token :=
  [⟨kKindContext, 0⟩, ⟨kPredictorContext, node.predictor.id⟩,
   ⟨kOffsetContext, node.predictor_offset⟩, ⟨kMultiplierContext, node.multiplier⟩]

/-- Modelled from the spec: the tokens `TokenizeTree` emits for a split, its
kind (1) and its payload "property id, threshold". -/
def SplitTokens (node : PropertyDecisionNode) : List Token :=
  [⟨kKindContext, 1⟩, ⟨kPropertyContext, node.property⟩,
   ⟨kSplitValContext, node.splitval⟩]

/-- Modelled from the spec: the local variables of the loop of `TokenizeTree`,
the nodes still to visit and the two outputs so far. -/
structure TokenizeState where
  queue : List Nat
  tokens : List Token
  decoder_tree : Tree
  deriving DecidableEq, Repr

/-- Modelled from the spec: the loop of `TokenizeTree` (section 4.5), which
"flattens a Tree into an ordered sequence of symbolic tokens representing, per
node, its kind (leaf/split) and payload" in "a node ordering that `DecodeTree`
can replay deterministically". The ordering is breadth-first from the root:
child indices are not part of the payload, and an append-only decoder can
assign them only if the two children of a split are adjacent (the default
`rchild = lchild + 1` of `PropertyDecisionNode::Split`) and follow every node
already announced. `decoder_tree` receives the nodes in that order, with the
child indices the decoder will assign. `fuel` bounds the number of iterations;
`none` stands for a read outside `tree` or for `fuel` iterations not being
enough. -/
def TokenizeLoop (tree : Tree) : Nat → TokenizeState → Option (List Token × Tree)
  | 0, _ => none
  | fuel + 1, s =>
    match s.queue with
    | [] => some (s.tokens, s.decoder_tree)
    | cur :: rest =>
      match tree[cur]? with
      | none => none
      | some node =>
        if node.property = -1 then
          TokenizeLoop tree fuel
            { queue := rest
              tokens := s.tokens ++ LeafTokens node
              decoder_tree := s.decoder_tree ++
                [PropertyDecisionNode.Leaf node.predictor node.predictor_offset
                  node.multiplier] }
        else
          TokenizeLoop tree fuel
            { queue := rest ++ [node.lchild, node.rchild]
              tokens := s.tokens ++ SplitTokens node
              decoder_tree := s.decoder_tree ++
                [SplitNode node.property node.splitval
                  (s.decoder_tree.length + rest.length + 1)
                  (s.decoder_tree.length + rest.length + 2)] }

/-- Modelled from the spec: `TokenizeTree(tree, tokens, decoder_tree)`; the two
output parameters are returned as a pair. The traversal starts at the root,
node 0. -/
def TokenizeTree (fuel : Nat) (tree : Tree) : Option (List Token × Tree) :=
  TokenizeLoop tree fuel { queue := [0], tokens := [], decoder_tree := [] }

/-- Modelled from the spec: the ways `DecodeTree` fails (section 7,
"malformed node payload, ... or node count exceeding `tree_size_limit`");
`truncated` is the bit reader running out of input. -/
inductive DecodeError where
  | tooLarge
  | malformed
  | truncated
  deriving DecidableEq, Repr

/-- Modelled from the spec: reading the next token of the stream in a given
context. A token of another role at that place is a malformed payload. -/
def ReadToken (context : Nat) : List Token → Except DecodeError (Int × List Token)
  | [] => .error .truncated
  | t :: rest => if t.context = context then .ok (t.value, rest) else .error .malformed

/-- Modelled from the spec: reading the payload of a leaf, "predictor id,
offset, multiplier". Values that do not fit the members of the node are a
malformed payload. -/
def ReadLeaf (tokens : List Token) :
    Except DecodeError (PropertyDecisionNode × List Token) :=
  match ReadToken kPredictorContext tokens with
  | .error e => .error e
  | .ok (predictor, tokens) =>
    match ReadToken kOffsetContext tokens with
    | .error e => .error e
    | .ok (offset, tokens) =>
      match ReadToken kMultiplierContext tokens with
      | .error e => .error e
      | .ok (multiplier, tokens) =>
        if 0 ≤ predictor ∧ -9223372036854775808 ≤ offset ∧
            offset ≤ 9223372036854775807 ∧ 0 ≤ multiplier ∧
            multiplier < 4294967296 then
          .ok (PropertyDecisionNode.Leaf (Predictor.ofId predictor.toNat) offset
            multiplier.toNat, tokens)
        else .error .malformed

/-- Modelled from the spec: reading the payload of a split, "property id,
threshold". The children are the next two nodes not yet announced: the left
one at index `lchild`, the right one after it. -/
def ReadSplit (tokens : List Token) (lchild : Nat) :
    Except DecodeError (PropertyDecisionNode × List Token) :=
  match ReadToken kPropertyContext tokens with
  | .error e => .error e
  | .ok (property, tokens) =>
    match ReadToken kSplitValContext tokens with
    | .error e => .error e
    | .ok (threshold, tokens) =>
      if 0 ≤ property ∧ property ≤ 32767 ∧ INT32_MIN ≤ threshold ∧
          threshold ≤ INT32_MAX then
        .ok (SplitNode property threshold lchild (lchild + 1), tokens)
      else .error .malformed

/-- Modelled from the spec: the local variables of the loop of `DecodeTree`,
the unread part of the stream, the node list, and the number of announced
nodes not yet read. -/
structure DecodeState where
  tokens : List Token
  tree : Tree
  to_decode : Nat
  deriving DecidableEq, Repr

/-- Modelled from the spec: reading one node, "kind flag, then kind-specific
payload", and appending it to the node list. A split announces two more
nodes. Called with `to_decode > 0`. -/
def DecodeNode (s : DecodeState) : Except DecodeError DecodeState :=
  match ReadToken kKindContext s.tokens with
  | .error e => .error e
  | .ok (kind, tokens) =>
    if kind = 0 then
      match ReadLeaf tokens with
      | .error e => .error e
      | .ok (node, tokens) =>
        .ok { tokens := tokens, tree := s.tree ++ [node], to_decode := s.to_decode - 1 }
    else if kind = 1 then
      match ReadSplit tokens (s.tree.length + (s.to_decode - 1) + 1) with
      | .error e => .error e
      | .ok (node, tokens) =>
        .ok { tokens := tokens, tree := s.tree ++ [node],
              to_decode := s.to_decode - 1 + 2 }
    else .error .malformed

/-- Modelled from the spec: one iteration of the loop of `DecodeTree`:
"decoding fails the moment the reconstructed node count would exceed the
limit"; the reconstructed node count is the nodes read plus the nodes
announced. -/
def DecodeStep (tree_size_limit : Nat) (s : DecodeState) :
    Except DecodeError DecodeState :=
  if tree_size_limit < s.tree.length + s.to_decode then .error .tooLarge
  else DecodeNode s

/-- Modelled from the spec: the loop of `DecodeTree`, "terminated implicitly
once the ... self-describing node count is reached or a size-limit violation
is detected": it ends when no announced node is left to read. `fuel` bounds
the number of iterations; `DecodeTree` allows more iterations than the size
check lets pass, so the case `fuel = 0` does not arise there. -/
def DecodeLoop (tree_size_limit : Nat) : Nat → DecodeState → Except DecodeError Tree
  | 0, _ => .error .tooLarge
  | fuel + 1, s =>
    if s.to_decode = 0 then .ok s.tree
    else
      match DecodeStep tree_size_limit s with
      | .error e => .error e
      | .ok s => DecodeLoop tree_size_limit fuel s

/-- Modelled from the spec: the state `DecodeTree` starts from, an empty node
list and the root announced. -/
def DecodeInit (tokens : List Token) : DecodeState :=
  { tokens := tokens, tree := [], to_decode := 1 }

/-- Modelled from the spec: `DecodeTree(br, tree, tree_size_limit)`, with the
bit reader given as the token stream it delivers. Every iteration appends a
node and needs the node count to stay within the limit, so
`tree_size_limit + 1` iterations are never used up. -/
def DecodeTree (tokens : List Token) (tree_size_limit : Nat) :
    Except DecodeError Tree :=
  DecodeLoop tree_size_limit (tree_size_limit + 1) (DecodeInit tokens)

/-- Modelled from the spec: the first `n` iterations of the loop of
`DecodeTree` from state `s`. The result is the state reached, which is the
state in which the loop ended if it ended earlier. -/
def DecodeRun (tree_size_limit : Nat) : Nat → DecodeState → Except DecodeError DecodeState
  | 0, s => .ok s
  | n + 1, s =>
    if s.to_decode = 0 then .ok s
    else
      match DecodeStep tree_size_limit s with
      | .error e => .error e
      | .ok s => DecodeRun tree_size_limit n s

/-- Modelled from the spec: the state of `DecodeTree` after `n` iterations of
its loop. -/
def DecodeIter (tree_size_limit : Nat) (tokens : List Token) (n : Nat) :
    Except DecodeError DecodeState :=
  DecodeRun tree_size_limit n (DecodeInit tokens)

/-! ### Specification functions for the codec -/

namespace TreePlan

/-- Every property id of the plan is an index into a property vector of
length `n`. -/
def propsBelow (n : Nat) : TreePlan → Bool
  | leaf _ _ _ => true
  | split property _ l r => decide (property.toNat < n) && l.propsBelow n && r.propsBelow n

/-- Total number of nodes of a list of plans. -/
def totalSize : List TreePlan → Nat
  | [] => 0
  | p :: ps => p.size + totalSize ps

/-- The nodes `ComputeBestTreeFrom` appends for a plan when the node list
already has `n` nodes: the node itself, its left subtree, its right
subtree. -/
def layout : Nat → TreePlan → Tree
  | _, leaf predictor offset multiplier =>
    [PropertyDecisionNode.Leaf predictor offset multiplier]
  | n, split property threshold l r =>
    SplitNode property threshold (n + 1) (n + 1 + l.size) ::
      (layout (n + 1) l ++ layout (n + 1 + l.size) r)

/-- The token stream of a queue of plans visited breadth-first; `g` bounds the
number of nodes. -/
def bfsTokens : Nat → List TreePlan → List Token
  | 0, _ => []
  | _ + 1, [] => []
  | g + 1, leaf predictor offset multiplier :: q =>
    LeafTokens (PropertyDecisionNode.Leaf predictor offset multiplier) ++ bfsTokens g q
  | g + 1, split property threshold l r :: q =>
    [⟨kKindContext, 1⟩, ⟨kPropertyContext, property⟩, ⟨kSplitValContext, threshold⟩] ++
      bfsTokens g (q ++ [l, r])

/-- The nodes of a queue of plans in breadth-first order, the first of them at
index `n`; `g` bounds the number of nodes. -/
def bfsNodes : Nat → Nat → List TreePlan → Tree
  | 0, _, _ => []
  | _ + 1, _, [] => []
  | g + 1, n, leaf predictor offset multiplier :: q =>
    PropertyDecisionNode.Leaf predictor offset multiplier :: bfsNodes g (n + 1) q
  | g + 1, n, split property threshold l r :: q =>
    SplitNode property threshold (n + q.length + 1) (n + q.length + 2) ::
      bfsNodes g (n + 1) (q ++ [l, r])

end TreePlan

/-- Node `i` of `tree` is the root of a subtree that realises `plan`: leaves
carry the plan's predictor, offset and multiplier, splits its property and
threshold, and the child indices lead to subtrees realising the
sub-plans. -/
def Represents (tree : Tree) : Nat → TreePlan → Prop
  | i, .leaf predictor offset multiplier =>
    tree[i]? = some (PropertyDecisionNode.Leaf predictor offset multiplier)
  | i, .split property threshold l r =>
    ∃ li ri, tree[i]? = some
        { splitval := threshold, property := property, lchild := li, rchild := ri,
          predictor := Predictor.Zero, predictor_offset := 0, multiplier := 1 } ∧
      Represents tree li l ∧ Represents tree ri r

/-! ## `X64_Topology` -/

/-- The members of `ProcessorTopology` that `X64_Topology::Detect` writes. The
struct is declared in `arch_specific.h`, which is not at hand; its members are
taken to be wide enough to hold the `size_t` counts assigned to them. -/
structure ProcessorTopology where
  logical_per_core : Nat
  cores_per_package : Nat
  packages : Nat
  deriving DecidableEq, Repr

namespace X64_Topology

/-- A left shift of a `uint32_t` by a run-time count, as the x64 `shl`
instruction performs it: the count is taken modulo 32 and the result is
truncated to 32 bits. -/
def shl32 (x count : Nat) : Nat := (x <<< (count % 32)) % 4294967296

/-- A right shift of a `uint32_t` by a run-time count, as the x64 `shr`
instruction performs it: the count is taken modulo 32. -/
def shr32 (x count : Nat) : Nat := x >>> (count % 32)

/-- The data members of `X64_Topology::Field`. The `std::set<uint32_t>` is
held as the list of its (pairwise distinct) elements. -/
structure Field where
  mask_ : Nat
  shift_ : Nat
  values_ : List Nat
  deriving DecidableEq, Repr

namespace Field

/-- The constructor `Field(bits, total_bits)`: `mask_((1U << bits) - 1)`,
`shift_(*total_bits)`, then `*total_bits += bits`. Returns the field and the
new value of `*total_bits`. -/
def init (bits total_bits : Nat) : Field × Nat :=
  ({ mask_ := (shl32 1 bits + 4294967296 - 1) % 4294967296
     shift_ := total_bits
     values_ := [] },
   (total_bits + bits) % 4294967296)

/-- `Field::AddValue`: `values_.insert((id >> shift_) & mask_)`. -/
def AddValue (f : Field) (id : Nat) : Field :=
  { f with values_ := f.values_.insert (shr32 id f.shift_ &&& f.mask_) }

/-- `Field::NumValues`: `values_.size()`. -/
def NumValues (f : Field) : Nat := f.values_.length

end Field

/-- The loop of `Detect` over `AvailableCPUs()`. Each list entry is what one
iteration observes: `none` when `PinThreadToCPU(cpu)` fails (the function then
returns false), `some id` when it succeeds and `ProcessorId(type)` is `id`. -/
def DetectLoop (logical core package : Field) :
    List (Option Nat) → Option (Field × Field × Field)
  | [] => some (logical, core, package)
  | none :: _ => none
  | some id :: rest =>
    DetectLoop (logical.AddValue id) (core.AddValue id) (package.AddValue id) rest

/-- `X64_Topology::Detect`. What the function reads from the machine is passed
in: `legacy_amd` is the result of `DetectLegacyAMD` (which, when true, has
stored 1, 1, 1), `core_bits` and `logical_bits` are the outputs of
`DetectFieldWidths`, `cpus` are the observations of the loop, and `restored`
is the result of `SetThreadAffinity(original_affinity)` under `JXL_CHECK`.
The result is `.ok (some t)` for `return true` with topology `t`, `.ok none`
for `return false`, and `.error` when `JXL_CHECK` aborts. -/
def Detect (legacy_amd : Bool) (core_bits logical_bits : Nat)
    (cpus : List (Option Nat)) (restored : Bool) :
    Except Fault (Option ProcessorTopology) :=
  if legacy_amd then .ok (some ⟨1, 1, 1⟩)
  else
    let total_bits := 0
    let (logical, total_bits) := Field.init logical_bits total_bits
    let (core, total_bits) := Field.init core_bits total_bits
    let (package, _) := Field.init 8 total_bits
    match DetectLoop logical core package cpus with
    | none => .ok none
    | some (logical, core, package) =>
      if restored then
        .ok (some ⟨logical.NumValues, core.NumValues, package.NumValues⟩)
      else .error .assertion

end X64_Topology

/-- What a field maintains: its values are pairwise distinct and none exceeds
the mask. -/
def FieldInv (f : X64_Topology.Field) : Prop :=
  f.values_.Nodup ∧ ∀ x ∈ f.values_, x ≤ f.mask_

/-! ## Sample data used to instantiate the theorems -/

/-- A mapping table with `2 * 511 + 1` entries: raw value `r` goes to bucket
`(r + 511) / 4`. -/
def sampleMapping : List Nat := (List.range 1023).map fun i => i / 4

/-- A sample store with one property and one predictor. -/
def sampleStore : TreeSamples where
  residuals := [[⟨3, 1⟩, ⟨0, 0⟩]]
  sample_counts := [2, 1]
  props := [[0, 1]]
  compact_properties := [[-7]]
  props_to_use := [5]
  predictors := [Predictor.Zero]
  property_mapping := [sampleMapping]
  num_samples := 3
  dedup_table_ := [0, 4294967295, 1, 4294967295]

/-- A store configured with one property for which nothing was observed: its
decompaction table is empty. -/
def emptyStore : TreeSamples where
  residuals := [[]]
  sample_counts := []
  props := [[]]
  compact_properties := [[]]
  props_to_use := [0]
  predictors := [Predictor.Zero]
  property_mapping := [List.replicate 1023 0]
  num_samples := 0
  dedup_table_ := []

/-- A plan with two splits and three leaves. -/
def samplePlan : TreePlan :=
  .split 0 5 (.leaf Predictor.Zero 0 1)
    (.split 1 (-2) (.leaf (Predictor.other 4) (-3) 2) (.leaf Predictor.Zero 7 1))

/-- The token stream of a split on property 0 at threshold 5 with two leaf
children. -/
def sampleTokens : List Token :=
  [⟨kKindContext, 1⟩, ⟨kPropertyContext, 0⟩, ⟨kSplitValContext, 5⟩,
   ⟨kKindContext, 0⟩, ⟨kPredictorContext, 0⟩, ⟨kOffsetContext, 0⟩, ⟨kMultiplierContext, 1⟩,
   ⟨kKindContext, 0⟩, ⟨kPredictorContext, 0⟩, ⟨kOffsetContext, 7⟩, ⟨kMultiplierContext, 1⟩]

/-- A store whose predictor list and property list each repeat their first
element at position 2. -/
def repeatStore : TreeSamples where
  residuals := [[], [], []]
  sample_counts := []
  props := [[], [], []]
  compact_properties := [[], [], []]
  props_to_use := [5, 2, 5]
  predictors := [Predictor.Zero, Predictor.other 3, Predictor.Zero]
  property_mapping := []
  num_samples := 0
  dedup_table_ := []

/-! ## Lemmas on the quantisation index -/

theorem QuantizeIndex_eq (v : Int) :
    TreeSamples.QuantizeIndex v = min (max v (-511)) 511 + 511 := by
  unfold TreeSamples.QuantizeIndex toInt32 kPropertyRange
  omega

theorem QuantizeIndex_range (v : Int) :
    0 ≤ TreeSamples.QuantizeIndex v ∧ TreeSamples.QuantizeIndex v ≤ 1022 := by
  rw [QuantizeIndex_eq]
  omega

theorem QuantizeIndex_mono {a b : Int} (h : a ≤ b) :
    TreeSamples.QuantizeIndex a ≤ TreeSamples.QuantizeIndex b := by
  rw [QuantizeIndex_eq, QuantizeIndex_eq]
  omega

theorem toSizeT_QuantizeIndex (v : Int) :
    (toSizeT (TreeSamples.QuantizeIndex v) : Int) = TreeSamples.QuantizeIndex v := by
  have h := QuantizeIndex_range v
  unfold toSizeT
  omega

theorem toSizeT_QuantizeIndex_lt (v : Int) :
    toSizeT (TreeSamples.QuantizeIndex v) < 1023 := by
  have h := QuantizeIndex_range v
  have h2 := toSizeT_QuantizeIndex v
  omega

theorem sampleMapping_getElem? (i x : Nat) (h : sampleMapping[i]? = some x) :
    x = i / 4 := by
  unfold sampleMapping at h
  rw [List.getElem?_map] at h
  by_cases hi : i < 1023
  · rw [List.getElem?_range hi] at h
    simpa using h.symm
  · rw [List.getElem?_eq_none (by simpa using hi)] at h
    simp at h

/-! ## Lemmas on `X64_Topology::Field` -/

/-- A duplicate-free list of numbers below `n` has at most `n` entries. -/
theorem length_le_of_nodup_of_lt {l : List Nat} {n : Nat} (hnd : l.Nodup)
    (hlt : ∀ x ∈ l, x < n) : l.length ≤ n := by
  have hsub : l ⊆ List.range n := fun x hx => List.mem_range.mpr (hlt x hx)
  have h := (List.subperm_of_subset hnd hsub).length_le
  simpa using h

theorem FieldInv_AddValue {f : X64_Topology.Field} (h : FieldInv f) (id : Nat) :
    FieldInv (f.AddValue id) ∧ (f.AddValue id).mask_ = f.mask_ ∧
      (f.AddValue id).values_ ≠ [] := by
  refine ⟨⟨h.1.insert, ?_⟩, rfl, ?_⟩
  · intro x hx
    simp only [X64_Topology.Field.AddValue, List.mem_insert_iff] at hx
    rcases hx with hx | hx
    · rw [hx]; exact Nat.and_le_right
    · exact h.2 x hx
  · intro he
    have hm : (X64_Topology.shr32 id f.shift_ &&& f.mask_) ∈ (f.AddValue id).values_ := by
      simp [X64_Topology.Field.AddValue]
    rw [he] at hm
    exact List.not_mem_nil _ hm

theorem FieldInv_foldl (ids : List Nat) :
    ∀ f : X64_Topology.Field, FieldInv f →
      FieldInv (ids.foldl X64_Topology.Field.AddValue f) ∧
      (ids.foldl X64_Topology.Field.AddValue f).mask_ = f.mask_ ∧
      (ids ≠ [] → (ids.foldl X64_Topology.Field.AddValue f).values_ ≠ []) := by
  induction ids with
  | nil => intro f h; exact ⟨h, rfl, fun hne => absurd rfl hne⟩
  | cons id rest ih =>
    intro f h
    obtain ⟨h1, h2, h3⟩ := FieldInv_AddValue h id
    obtain ⟨k1, k2, k3⟩ := ih (f.AddValue id) h1
    refine ⟨k1, by rw [List.foldl_cons, k2, h2], fun _ => ?_⟩
    rw [List.foldl_cons]
    cases rest with
    | nil => exact h3
    | cons a t => exact k3 (by simp)

theorem Field_init_mask (bits total_bits : Nat) (hbits : bits < 32) :
    (X64_Topology.Field.init bits total_bits).1.mask_ = 2 ^ bits - 1 := by
  have hpos : 0 < 2 ^ bits := Nat.two_pow_pos bits
  have hlt : 2 ^ bits < 2 ^ 32 := Nat.pow_lt_pow_right (by decide) hbits
  have h32 : (2 : Nat) ^ 32 = 4294967296 := by norm_num
  simp only [X64_Topology.Field.init, X64_Topology.shl32, Nat.mod_eq_of_lt hbits,
    Nat.one_shiftLeft]
  omega

theorem Field_init_inv (bits total_bits : Nat) :
    FieldInv (X64_Topology.Field.init bits total_bits).1 :=
  ⟨List.nodup_nil, fun _ hx => absurd hx (List.not_mem_nil _)⟩

theorem Field_NumValues_le_mask {f : X64_Topology.Field} (h : FieldInv f) :
    f.NumValues ≤ f.mask_ + 1 :=
  length_le_of_nodup_of_lt h.1 fun x hx => Nat.lt_succ_of_le (h.2 x hx)

/-- Adding ids to a freshly constructed field of width `bits < 32` leaves at
most `2 ^ bits` values. -/
theorem Field_foldl_le (bits total_bits : Nat) (ids : List Nat) (hbits : bits < 32) :
    (ids.foldl X64_Topology.Field.AddValue
      (X64_Topology.Field.init bits total_bits).1).NumValues ≤ 2 ^ bits := by
  obtain ⟨h1, h2, _⟩ := FieldInv_foldl ids _ (Field_init_inv bits total_bits)
  have h := Field_NumValues_le_mask h1
  rw [h2, Field_init_mask bits total_bits hbits] at h
  have hpos : 0 < 2 ^ bits := Nat.two_pow_pos bits
  omega

/-- The loop of `Detect` either stops at a failed pin or adds every id to each
of the three fields. -/
theorem DetectLoop_eq (cpus : List (Option Nat)) :
    ∀ (logical core package : X64_Topology.Field) (r : X64_Topology.Field ×
        X64_Topology.Field × X64_Topology.Field),
      X64_Topology.DetectLoop logical core package cpus = some r →
      ∃ ids : List Nat, cpus = ids.map some ∧
        r = (ids.foldl X64_Topology.Field.AddValue logical,
             ids.foldl X64_Topology.Field.AddValue core,
             ids.foldl X64_Topology.Field.AddValue package) := by
  induction cpus with
  | nil =>
    intro l c p r h
    simp only [X64_Topology.DetectLoop, Option.some.injEq] at h
    exact ⟨[], rfl, by rw [← h]; rfl⟩
  | cons x rest ih =>
    intro l c p r h
    cases x with
    | none => simp [X64_Topology.DetectLoop] at h
    | some id =>
      simp only [X64_Topology.DetectLoop] at h
      obtain ⟨ids, h1, h2⟩ := ih _ _ _ r h
      exact ⟨id :: ids, by rw [h1]; rfl, by rw [h2]; rfl⟩

theorem DetectLoop_all_pinned (ids : List Nat) :
    ∀ (logical core package : X64_Topology.Field),
      X64_Topology.DetectLoop logical core package (ids.map some) =
        some (ids.foldl X64_Topology.Field.AddValue logical,
              ids.foldl X64_Topology.Field.AddValue core,
              ids.foldl X64_Topology.Field.AddValue package) := by
  induction ids with
  | nil => intro l c p; rfl
  | cons id rest ih =>
    intro l c p
    simp only [List.map_cons, X64_Topology.DetectLoop, List.foldl_cons]
    exact ih _ _ _

/-- The shape of `Detect` once the legacy-AMD shortcut is not taken. -/
theorem Detect_not_legacy (core_bits logical_bits : Nat) (cpus : List (Option Nat))
    (restored : Bool) :
    X64_Topology.Detect false core_bits logical_bits cpus restored =
      match X64_Topology.DetectLoop (X64_Topology.Field.init logical_bits 0).1
          (X64_Topology.Field.init core_bits (X64_Topology.Field.init logical_bits 0).2).1
          (X64_Topology.Field.init 8
            (X64_Topology.Field.init core_bits
              (X64_Topology.Field.init logical_bits 0).2).2).1 cpus with
      | none => .ok none
      | some (logical, core, package) =>
        if restored then
          .ok (some ⟨logical.NumValues, core.NumValues, package.NumValues⟩)
        else .error .assertion := rfl

/-- Bounds on what `Detect` reports, for field widths below 32. -/
theorem Detect_bounds (legacy_amd restored : Bool) (core_bits logical_bits : Nat)
    (cpus : List (Option Nat)) (t : ProcessorTopology)
    (hc : core_bits < 32) (hl : logical_bits < 32)
    (h : X64_Topology.Detect legacy_amd core_bits logical_bits cpus restored =
      .ok (some t)) :
    t.cores_per_package ≤ 2 ^ core_bits ∧ t.logical_per_core ≤ 2 ^ logical_bits ∧
      t.packages ≤ 256 := by
  cases legacy_amd with
  | true =>
    simp only [X64_Topology.Detect, if_true, Except.ok.injEq, Option.some.injEq] at h
    rw [← h]
    exact ⟨Nat.one_le_two_pow, Nat.one_le_two_pow, by decide⟩
  | false =>
    rw [Detect_not_legacy] at h
    split at h
    · simp at h
    · rename_i logical core package hloop
      obtain ⟨ids, _, hr⟩ := DetectLoop_eq cpus _ _ _ _ hloop
      cases restored with
      | false => simp at h
      | true =>
        simp only [if_true, Except.ok.injEq, Option.some.injEq] at h
        simp only [Prod.mk.injEq] at hr
        obtain ⟨r1, r2, r3⟩ := hr
        rw [← h, r1, r2, r3]
        exact ⟨Field_foldl_le _ _ ids hc, Field_foldl_le _ _ ids hl,
          Field_foldl_le 8 _ ids (by decide)⟩

/-! ## Lemmas on nodes and plans -/

theorem Leaf_node (predictor : Predictor) (offset : Int) (multiplier : Nat) :
    PropertyDecisionNode.Leaf predictor offset multiplier =
      { splitval := 0, property := -1, lchild := 0, rchild := 0,
        predictor := predictor, predictor_offset := offset, multiplier := multiplier } :=
  rfl

theorem SplitNode_eq (p s : Int) (l r : Nat)
    (hp0 : 0 ≤ p) (hp1 : p ≤ 32767) (hs0 : INT32_MIN ≤ s) (hs1 : s ≤ INT32_MAX)
    (hl : l < 2147483648) (hr : r < 2147483648) :
    SplitNode p s l r =
      { splitval := s, property := p, lchild := l, rchild := r,
        predictor := Predictor.Zero, predictor_offset := 0, multiplier := 1 } := by
  unfold INT32_MIN at hs0
  unfold INT32_MAX at hs1
  have e1 : toInt16 p = p := by unfold toInt16; omega
  have e2 : toInt32 s = s := by unfold toInt32; omega
  have e3 : toUInt32 l = l := by unfold toUInt32; omega
  have e4 : toUInt32 r = r := by unfold toUInt32; omega
  simp only [SplitNode, PropertyDecisionNode.init, e1, e2, e3, e4]

theorem Predictor_ofId_id (p : Predictor) : Predictor.ofId p.id = p := by
  cases p <;> rfl

theorem TreePlan_size_pos (plan : TreePlan) : 1 ≤ plan.size := by
  cases plan <;> simp only [TreePlan.size] <;> omega

theorem TreePlan_length_le_totalSize (plans : List TreePlan) :
    plans.length ≤ TreePlan.totalSize plans := by
  induction plans with
  | nil => exact Nat.le_refl _
  | cons p ps ih =>
    have := TreePlan_size_pos p
    simp only [List.length_cons, TreePlan.totalSize]
    omega

theorem TreePlan_totalSize_append (ps qs : List TreePlan) :
    TreePlan.totalSize (ps ++ qs) = TreePlan.totalSize ps + TreePlan.totalSize qs := by
  induction ps with
  | nil => simp [TreePlan.totalSize]
  | cons p ps ih =>
    show p.size + TreePlan.totalSize (ps ++ qs) =
      p.size + TreePlan.totalSize ps + TreePlan.totalSize qs
    rw [ih]; omega

theorem TreePlan_valid_leaf {predictor : Predictor} {offset : Int} {multiplier : Nat}
    (h : (TreePlan.leaf predictor offset multiplier).valid = true) :
    -9223372036854775808 ≤ offset ∧ offset ≤ 9223372036854775807 ∧
      multiplier < 4294967296 := by
  simpa [TreePlan.valid, and_assoc] using h

theorem TreePlan_valid_split {property threshold : Int} {l r : TreePlan}
    (h : (TreePlan.split property threshold l r).valid = true) :
    0 ≤ property ∧ property ≤ 32767 ∧ INT32_MIN ≤ threshold ∧ threshold ≤ INT32_MAX ∧
      l.valid = true ∧ r.valid = true := by
  simpa [TreePlan.valid, and_assoc] using h

/-! ## Lemmas on `Classify` -/

/-- Walking a subtree that realises a plan gives the plan's leaf. -/
theorem Classify_of_Represents (tree : Tree) (props : List Int) (plan : TreePlan) :
    ∀ (i fuel : Nat), Represents tree i plan → plan.valid = true → plan.size ≤ fuel →
      Classify tree props fuel i = plan.eval props := by
  induction plan with
  | leaf predictor offset multiplier =>
    intro i fuel hrep _ hfuel
    simp only [TreePlan.size] at hfuel
    obtain ⟨f, rfl⟩ : ∃ f, fuel = f + 1 := ⟨fuel - 1, by omega⟩
    simp only [Represents] at hrep
    simp [Classify, hrep, Leaf_node, TreePlan.eval]
  | split property threshold l r ihl ihr =>
    intro i fuel hrep hvalid hfuel
    simp only [TreePlan.size] at hfuel
    obtain ⟨f, rfl⟩ : ∃ f, fuel = f + 1 := ⟨fuel - 1, by omega⟩
    obtain ⟨li, ri, hnode, hl, hr⟩ := hrep
    obtain ⟨hp0, _, _, _, hvl, hvr⟩ := TreePlan_valid_split hvalid
    have hne : property ≠ -1 := by omega
    simp only [Classify, hnode, if_neg hne, TreePlan.eval]
    cases props[property.toNat]? with
    | none => rfl
    | some v =>
      simp only []
      by_cases hv : v ≤ threshold
      · simp only [if_pos hv]
        exact ihl li f hl hvl (by omega)
      · simp only [if_neg hv]
        exact ihr ri f hr hvr (by omega)

/-- A plan whose property ids index into the property vector assigns a leaf. -/
theorem TreePlan_eval_isSome (props : List Int) (plan : TreePlan)
    (h : plan.propsBelow props.length = true) : (plan.eval props).isSome = true := by
  induction plan with
  | leaf predictor offset multiplier => rfl
  | split property threshold l r ihl ihr =>
    simp only [TreePlan.propsBelow, Bool.and_eq_true, decide_eq_true_eq] at h
    obtain ⟨⟨hp, hl⟩, hr⟩ := h
    simp only [TreePlan.eval, List.getElem?_eq_getElem hp]
    by_cases hv : props[property.toNat] ≤ threshold
    · simp only [if_pos hv]; exact ihl hl
    · simp only [if_neg hv]; exact ihr hr

/-! ## Lemmas on the builder -/

theorem TreePlan_layout_length (plan : TreePlan) :
    ∀ n, (TreePlan.layout n plan).length = plan.size := by
  induction plan with
  | leaf predictor offset multiplier => intro n; rfl
  | split property threshold l r ihl ihr =>
    intro n
    simp only [TreePlan.layout, List.length_cons, List.length_append, ihl, ihr,
      TreePlan.size]
    omega

theorem set_append_cons {α : Type} (pre : List α) (a b : α) (post : List α) :
    (pre ++ a :: post).set pre.length b = pre ++ b :: post := by
  induction pre with
  | nil => rfl
  | cons x xs ih => simp only [List.cons_append, List.length_cons, List.set_cons_succ, ih]

/-- The builder appends the layout of the plan to the shared node list. -/
theorem ComputeBestTreeFrom_eq (plan : TreePlan) :
    ∀ pre : Tree, ComputeBestTreeFrom plan pre = pre ++ TreePlan.layout pre.length plan := by
  induction plan with
  | leaf predictor offset multiplier => intro pre; rfl
  | split property threshold l r ihl ihr =>
    intro pre
    simp only [ComputeBestTreeFrom, ihl, ihr, List.length_append, List.length_singleton,
      TreePlan_layout_length, TreePlan.layout]
    rw [List.append_assoc, List.append_assoc, List.singleton_append, set_append_cons]

theorem getElem?_append_cons {α : Type} (pre : List α) (a : α) (post : List α) :
    (pre ++ a :: post)[pre.length]? = some a := by
  induction pre with
  | nil => simp
  | cons x xs ih => simpa using ih

/-- The layout of a plan realises the plan, wherever it sits in a node list. -/
theorem Represents_layout (plan : TreePlan) :
    ∀ (pre post : Tree), plan.valid = true → pre.length + plan.size < 2147483648 →
      Represents (pre ++ (TreePlan.layout pre.length plan ++ post)) pre.length plan := by
  induction plan with
  | leaf predictor offset multiplier =>
    intro pre post _ _
    simp only [Represents, TreePlan.layout, List.singleton_append]
    exact getElem?_append_cons pre _ post
  | split property threshold l r ihl ihr =>
    intro pre post hvalid hsize
    obtain ⟨hp0, hp1, hs0, hs1, hvl, hvr⟩ := TreePlan_valid_split hvalid
    simp only [TreePlan.size] at hsize
    have hnode := SplitNode_eq property threshold (pre.length + 1) (pre.length + 1 + l.size)
      hp0 hp1 hs0 hs1 (by omega) (by omega)
    refine ⟨pre.length + 1, pre.length + 1 + l.size, ?_, ?_, ?_⟩
    · simp only [TreePlan.layout, List.cons_append, hnode]
      exact getElem?_append_cons pre _ _
    · have h := ihl (pre ++ [SplitNode property threshold
          (pre.length + 1) (pre.length + 1 + l.size)])
        (TreePlan.layout (pre.length + 1 + l.size) r ++ post) hvl
        (by simp only [List.length_append, List.length_singleton]; omega)
      simpa [TreePlan.layout, List.append_assoc] using h
    · have hlen : (pre ++ (SplitNode property threshold
          (pre.length + 1) (pre.length + 1 + l.size) ::
          TreePlan.layout (pre.length + 1) l)).length = pre.length + 1 + l.size := by
        simp only [List.length_append, List.length_cons, TreePlan_layout_length]; omega
      have h := ihr (pre ++ (SplitNode property threshold
          (pre.length + 1) (pre.length + 1 + l.size) ::
          TreePlan.layout (pre.length + 1) l)) post hvr (by rw [hlen]; omega)
      rw [hlen] at h
      simp only [TreePlan.layout, List.append_assoc, List.cons_append] at h ⊢
      exact h

/-! ## Lemmas on the codec -/

theorem TreePlan_totalSize_eq_zero {plans : List TreePlan}
    (h : TreePlan.totalSize plans = 0) : plans = [] := by
  cases plans with
  | nil => rfl
  | cons p ps =>
    have := TreePlan_size_pos p
    simp only [TreePlan.totalSize] at h
    omega

/-- The tokenizer, started on a queue of nodes that realise a queue of plans,
emits the breadth-first token stream and node list of these plans. -/
theorem TokenizeLoop_bfs (tree : Tree) :
    ∀ (g : Nat) (plans : List TreePlan) (idxs : List Nat) (toks : List Token) (dt : Tree),
      List.Forall₂ (Represents tree) idxs plans →
      (∀ p ∈ plans, TreePlan.valid p = true) →
      TreePlan.totalSize plans ≤ g →
      TokenizeLoop tree (g + 1) { queue := idxs, tokens := toks, decoder_tree := dt } =
        some (toks ++ TreePlan.bfsTokens g plans,
          dt ++ TreePlan.bfsNodes g dt.length plans) := by
  intro g
  induction g with
  | zero =>
    intro plans idxs toks dt hrep _ hsize
    have hp : plans = [] := TreePlan_totalSize_eq_zero (by omega)
    subst hp
    cases hrep
    simp [TokenizeLoop, TreePlan.bfsTokens, TreePlan.bfsNodes]
  | succ g ih =>
    intro plans idxs toks dt hrep hvalid hsize
    cases hrep with
    | nil => simp [TokenizeLoop, TreePlan.bfsTokens, TreePlan.bfsNodes]
    | @cons i p is q hi hrest =>
      have hlen : is.length = q.length := hrest.length_eq
      have hvq : ∀ p ∈ q, TreePlan.valid p = true :=
        fun x hx => hvalid x (List.mem_cons_of_mem _ hx)
      cases p with
      | leaf predictor offset multiplier =>
        simp only [Represents] at hi
        simp only [TreePlan.totalSize, TreePlan.size] at hsize
        rw [TokenizeLoop]
        simp only [hi, Leaf_node, if_true]
        rw [ih q is _ _ hrest hvq (by omega)]
        simp only [TreePlan.bfsTokens, TreePlan.bfsNodes, Leaf_node, List.append_assoc,
          List.length_append, List.length_singleton, List.singleton_append]
      | split property threshold l r =>
        obtain ⟨li, ri, hnode, hl, hr⟩ := hi
        obtain ⟨hp0, hp1, hs0, hs1, hvl, hvr⟩ :=
          TreePlan_valid_split (hvalid _ (List.mem_cons_self _ _))
        have hne : property ≠ -1 := by omega
        simp only [TreePlan.totalSize, TreePlan.size] at hsize
        have hrep2 : List.Forall₂ (Represents tree) (is ++ [li, ri]) (q ++ [l, r]) :=
          List.rel_append hrest (List.Forall₂.cons hl (List.Forall₂.cons hr List.Forall₂.nil))
        have hv2 : ∀ p ∈ q ++ [l, r], TreePlan.valid p = true := by
          intro x hx
          simp only [List.mem_append, List.mem_cons, List.mem_singleton,
            List.not_mem_nil, or_false] at hx
          rcases hx with hx | hx | hx
          · exact hvq x hx
          · rw [hx]; exact hvl
          · rw [hx]; exact hvr
        have hs2 : TreePlan.totalSize (q ++ [l, r]) ≤ g := by
          rw [TreePlan_totalSize_append]
          simp only [TreePlan.totalSize]
          omega
        rw [TokenizeLoop]
        simp only [hnode, if_neg hne]
        rw [ih (q ++ [l, r]) (is ++ [li, ri]) _ _ hrep2 hv2 hs2]
        simp only [TreePlan.bfsTokens, TreePlan.bfsNodes, SplitTokens, List.append_assoc,
          List.length_append, List.length_singleton, List.singleton_append, hlen,
          List.cons_append, List.nil_append, Nat.cast_add, Nat.cast_one]

theorem DecodeStep_leaf (limit : Nat) (predictor : Predictor) (offset : Int)
    (multiplier : Nat) (rest : List Token) (acc : Tree) (td : Nat)
    (hvalid : (TreePlan.leaf predictor offset multiplier).valid = true)
    (hlimit : acc.length + td ≤ limit) :
    DecodeStep limit
        { tokens := LeafTokens (PropertyDecisionNode.Leaf predictor offset multiplier) ++ rest,
          tree := acc, to_decode := td } =
      .ok { tokens := rest,
            tree := acc ++ [PropertyDecisionNode.Leaf predictor offset multiplier],
            to_decode := td - 1 } := by
  obtain ⟨ho0, ho1, hm⟩ := TreePlan_valid_leaf hvalid
  have hcheck : ¬ limit < acc.length + td := by omega
  have hcond : (0 : Int) ≤ (predictor.id : Int) ∧ -9223372036854775808 ≤ offset ∧
      offset ≤ 9223372036854775807 ∧ (0 : Int) ≤ (multiplier : Int) ∧
      (multiplier : Int) < 4294967296 := by
    refine ⟨by omega, ho0, ho1, by omega, by omega⟩
  simp only [DecodeStep, if_neg hcheck, DecodeNode, LeafTokens, Leaf_node, List.cons_append,
    List.nil_append, ReadToken, if_true, ReadLeaf, if_pos hcond, Int.toNat_ofNat,
    Predictor_ofId_id]

theorem DecodeStep_split (limit : Nat) (property threshold : Int) (l r : TreePlan)
    (rest : List Token) (acc : Tree) (td : Nat)
    (hvalid : (TreePlan.split property threshold l r).valid = true)
    (hlimit : acc.length + td ≤ limit) :
    DecodeStep limit
        { tokens := [⟨kKindContext, 1⟩, ⟨kPropertyContext, property⟩,
            ⟨kSplitValContext, threshold⟩] ++ rest,
          tree := acc, to_decode := td } =
      .ok { tokens := rest,
            tree := acc ++ [SplitNode property threshold
              (acc.length + (td - 1) + 1) (acc.length + (td - 1) + 1 + 1)],
            to_decode := td - 1 + 2 } := by
  obtain ⟨hp0, hp1, hs0, hs1, _, _⟩ := TreePlan_valid_split hvalid
  have hcheck : ¬ limit < acc.length + td := by omega
  have hcond : 0 ≤ property ∧ property ≤ 32767 ∧ INT32_MIN ≤ threshold ∧
      threshold ≤ INT32_MAX := ⟨hp0, hp1, hs0, hs1⟩
  have h10 : ¬ ((1 : Int) = 0) := by decide
  simp only [DecodeStep, if_neg hcheck, DecodeNode, List.cons_append,
    List.nil_append, ReadToken, if_true, if_neg h10, ReadSplit, if_pos hcond]

/-- The decoder, fed the breadth-first token stream of a queue of plans that
fits the limit, appends the breadth-first node list of these plans. -/
theorem DecodeLoop_bfs (limit : Nat) :
    ∀ (g : Nat) (plans : List TreePlan) (acc : Tree) (rest : List Token) (fuel : Nat),
      (∀ p ∈ plans, TreePlan.valid p = true) →
      TreePlan.totalSize plans ≤ g →
      acc.length + TreePlan.totalSize plans ≤ limit →
      TreePlan.totalSize plans < fuel →
      DecodeLoop limit fuel
          { tokens := TreePlan.bfsTokens g plans ++ rest, tree := acc,
            to_decode := plans.length } =
        .ok (acc ++ TreePlan.bfsNodes g acc.length plans) := by
  intro g
  induction g with
  | zero =>
    intro plans acc rest fuel _ hsize _ hfuel
    have hp : plans = [] := TreePlan_totalSize_eq_zero (by omega)
    subst hp
    obtain ⟨f, rfl⟩ : ∃ f, fuel = f + 1 := ⟨fuel - 1, by omega⟩
    simp [DecodeLoop, TreePlan.bfsNodes]
  | succ g ih =>
    intro plans acc rest fuel hvalid hsize hlimit hfuel
    obtain ⟨f, rfl⟩ : ∃ f, fuel = f + 1 := ⟨fuel - 1, by omega⟩
    cases plans with
    | nil => simp [DecodeLoop, TreePlan.bfsNodes]
    | cons p q =>
      have hvq : ∀ p ∈ q, TreePlan.valid p = true :=
        fun x hx => hvalid x (List.mem_cons_of_mem _ hx)
      have hlen := TreePlan_length_le_totalSize q
      have hne : ¬ ((p :: q).length = 0) := by simp
      cases p with
      | leaf predictor offset multiplier =>
        simp only [TreePlan.totalSize, TreePlan.size] at hsize hlimit hfuel
        rw [DecodeLoop]
        simp only [if_neg hne, TreePlan.bfsTokens, List.append_assoc]
        rw [DecodeStep_leaf limit predictor offset multiplier _ acc _
          (hvalid _ (List.mem_cons_self _ _))
          (by simp only [List.length_cons]; omega)]
        simp only [List.length_cons, Nat.add_sub_cancel]
        rw [ih q _ rest f hvq (by omega)
          (by simp only [List.length_append, List.length_singleton]; omega) (by omega)]
        simp only [TreePlan.bfsNodes, List.append_assoc, List.length_append,
          List.length_singleton, List.singleton_append]
      | split property threshold l r =>
        obtain ⟨_, _, _, _, hvl, hvr⟩ :=
          TreePlan_valid_split (hvalid _ (List.mem_cons_self _ _))
        simp only [TreePlan.totalSize, TreePlan.size] at hsize hlimit hfuel
        have hv2 : ∀ p ∈ q ++ [l, r], TreePlan.valid p = true := by
          intro x hx
          simp only [List.mem_append, List.mem_cons, List.mem_singleton,
            List.not_mem_nil, or_false] at hx
          rcases hx with hx | hx | hx
          · exact hvq x hx
          · rw [hx]; exact hvl
          · rw [hx]; exact hvr
        have hs2 : TreePlan.totalSize (q ++ [l, r]) = TreePlan.totalSize q + (l.size + r.size) := by
          rw [TreePlan_totalSize_append]
          simp only [TreePlan.totalSize]
          omega
        have hl2 : (q ++ [l, r]).length = q.length + 1 - 1 + 2 := by
          simp only [List.length_append, List.length_cons, List.length_nil]; omega
        rw [DecodeLoop]
        simp only [if_neg hne, TreePlan.bfsTokens, List.append_assoc]
        rw [DecodeStep_split limit property threshold l r _ acc _
          (hvalid _ (List.mem_cons_self _ _))
          (by simp only [List.length_cons]; omega)]
        simp only [List.length_cons]
        rw [← hl2]
        rw [ih (q ++ [l, r]) _ rest f hv2 (by omega)
          (by simp only [List.length_append, List.length_singleton]; omega) (by omega)]
        simp only [TreePlan.bfsNodes, List.append_assoc, List.length_append,
          List.length_singleton, List.singleton_append, Nat.add_sub_cancel]

theorem getElem?_append_pair {α : Type} (q : List α) (l r : α) :
    (q ++ [l, r])[q.length]? = some l ∧ (q ++ [l, r])[q.length + 1]? = some r := by
  induction q with
  | nil => simp
  | cons x xs ih => simpa using ih

/-- In the breadth-first node list of a queue of plans, the node at the place
of the `j`-th plan of the queue realises that plan. -/
theorem Represents_bfsNodes :
    ∀ (g : Nat) (plans : List TreePlan) (pre : Tree),
      (∀ p ∈ plans, TreePlan.valid p = true) →
      TreePlan.totalSize plans ≤ g →
      pre.length + TreePlan.totalSize plans < 2147483648 →
      ∀ (j : Nat) (plan : TreePlan), plans[j]? = some plan →
        Represents (pre ++ TreePlan.bfsNodes g pre.length plans) (pre.length + j) plan := by
  intro g
  induction g with
  | zero =>
    intro plans pre _ hsize _ j plan hj
    have hp : plans = [] := TreePlan_totalSize_eq_zero (by omega)
    subst hp
    simp at hj
  | succ g ih =>
    intro plans pre hvalid hsize hbound j plan hj
    cases plans with
    | nil => simp at hj
    | cons p q =>
      have hvq : ∀ p ∈ q, TreePlan.valid p = true :=
        fun x hx => hvalid x (List.mem_cons_of_mem _ hx)
      have hlen := TreePlan_length_le_totalSize q
      cases p with
      | leaf predictor offset multiplier =>
        simp only [TreePlan.totalSize, TreePlan.size] at hsize hbound
        have htree : pre ++ TreePlan.bfsNodes (g + 1) pre.length
              (TreePlan.leaf predictor offset multiplier :: q) =
            (pre ++ [PropertyDecisionNode.Leaf predictor offset multiplier]) ++
              TreePlan.bfsNodes g
                (pre ++ [PropertyDecisionNode.Leaf predictor offset multiplier]).length q := by
          simp only [TreePlan.bfsNodes, List.append_assoc, List.length_append,
            List.length_singleton, List.singleton_append]
        cases j with
        | zero =>
          simp only [List.getElem?_cons_zero, Option.some.injEq] at hj
          subst hj
          simp only [Represents, TreePlan.bfsNodes, Nat.add_zero]
          exact getElem?_append_cons pre _ _
        | succ j =>
          simp only [List.getElem?_cons_succ] at hj
          have h := ih q (pre ++ [PropertyDecisionNode.Leaf predictor offset multiplier]) hvq
            (by omega)
            (by simp only [List.length_append, List.length_singleton]; omega) j plan hj
          rw [htree]
          have hidx : pre.length + (j + 1) =
              (pre ++ [PropertyDecisionNode.Leaf predictor offset multiplier]).length + j := by
            simp only [List.length_append, List.length_singleton]; omega
          rw [hidx]
          exact h
      | split property threshold l r =>
        obtain ⟨hp0, hp1, hs0, hs1, hvl, hvr⟩ :=
          TreePlan_valid_split (hvalid _ (List.mem_cons_self _ _))
        simp only [TreePlan.totalSize, TreePlan.size] at hsize hbound
        have hv2 : ∀ p ∈ q ++ [l, r], TreePlan.valid p = true := by
          intro x hx
          simp only [List.mem_append, List.mem_cons, List.mem_singleton,
            List.not_mem_nil, or_false] at hx
          rcases hx with hx | hx | hx
          · exact hvq x hx
          · rw [hx]; exact hvl
          · rw [hx]; exact hvr
        have hs2 : TreePlan.totalSize (q ++ [l, r]) =
            TreePlan.totalSize q + (l.size + r.size) := by
          rw [TreePlan_totalSize_append]
          simp only [TreePlan.totalSize]
          omega
        have hlpos := TreePlan_size_pos l
        have hnode := SplitNode_eq property threshold (pre.length + q.length + 1)
          (pre.length + q.length + 2) hp0 hp1 hs0 hs1 (by omega) (by omega)
        have htree : pre ++ TreePlan.bfsNodes (g + 1) pre.length
              (TreePlan.split property threshold l r :: q) =
            (pre ++ [SplitNode property threshold
                (pre.length + q.length + 1) (pre.length + q.length + 2)]) ++
              TreePlan.bfsNodes g
                (pre ++ [SplitNode property threshold
                  (pre.length + q.length + 1) (pre.length + q.length + 2)]).length (q ++ [l, r]) := by
          simp only [TreePlan.bfsNodes, List.append_assoc, List.length_append,
            List.length_singleton, List.singleton_append]
        have hlen' : (pre ++ [SplitNode property threshold
            (pre.length + q.length + 1) (pre.length + q.length + 2)]).length = pre.length + 1 := by
          simp only [List.length_append, List.length_singleton]
        have h := ih (q ++ [l, r])
          (pre ++ [SplitNode property threshold
            (pre.length + q.length + 1) (pre.length + q.length + 2)]) hv2 (by omega) (by rw [hlen']; omega)
        rw [← htree, hlen'] at h
        cases j with
        | zero =>
          simp only [List.getElem?_cons_zero, Option.some.injEq] at hj
          subst hj
          refine ⟨pre.length + q.length + 1, pre.length + q.length + 1 + 1, ?_, ?_, ?_⟩
          · simp only [TreePlan.bfsNodes, Nat.add_zero, hnode]
            exact getElem?_append_cons pre _ _
          · have hl := h q.length l (getElem?_append_pair q l r).1
            have hidx : pre.length + 1 + q.length = pre.length + q.length + 1 := by omega
            rw [hidx] at hl
            exact hl
          · have hr := h (q.length + 1) r (getElem?_append_pair q l r).2
            have hidx : pre.length + 1 + (q.length + 1) = pre.length + q.length + 1 + 1 := by
              omega
            rw [hidx] at hr
            exact hr
        | succ j =>
          simp only [List.getElem?_cons_succ] at hj
          have hjlt : j < q.length := by
            by_contra hc
            rw [List.getElem?_eq_none (by omega)] at hj
            exact Option.noConfusion hj
          have hj2 : (q ++ [l, r])[j]? = some plan := by
            rw [List.getElem?_append_left hjlt]; exact hj
          have hq := h j plan hj2
          have hidx : pre.length + 1 + j = pre.length + (j + 1) := by omega
          rw [hidx] at hq
          exact hq

theorem TreePlan_bfsNodes_length :
    ∀ (g n : Nat) (plans : List TreePlan), TreePlan.totalSize plans ≤ g →
      (TreePlan.bfsNodes g n plans).length = TreePlan.totalSize plans := by
  intro g
  induction g with
  | zero =>
    intro n plans hsize
    have hp : plans = [] := TreePlan_totalSize_eq_zero (by omega)
    subst hp
    rfl
  | succ g ih =>
    intro n plans hsize
    cases plans with
    | nil => rfl
    | cons p q =>
      cases p with
      | leaf predictor offset multiplier =>
        simp only [TreePlan.totalSize, TreePlan.size] at hsize ⊢
        simp only [TreePlan.bfsNodes, List.length_cons, ih (n + 1) q (by omega)]
        omega
      | split property threshold l r =>
        simp only [TreePlan.totalSize, TreePlan.size] at hsize ⊢
        have hs2 : TreePlan.totalSize (q ++ [l, r]) =
            TreePlan.totalSize q + (l.size + r.size) := by
          rw [TreePlan_totalSize_append]
          simp only [TreePlan.totalSize]
          omega
        simp only [TreePlan.bfsNodes, List.length_cons,
          ih (n + 1) (q ++ [l, r]) (by omega), hs2]
        omega

theorem ComputeBestTree_eq (plan : TreePlan) :
    ComputeBestTree plan = TreePlan.layout 0 plan := by
  simp only [ComputeBestTree, ComputeBestTreeFrom_eq, List.nil_append, List.length_nil]

theorem ComputeBestTree_length (plan : TreePlan) :
    (ComputeBestTree plan).length = plan.size := by
  rw [ComputeBestTree_eq, TreePlan_layout_length]

theorem Represents_ComputeBestTree (plan : TreePlan) (hvalid : plan.valid = true)
    (hsize : plan.size < 2147483648) : Represents (ComputeBestTree plan) 0 plan := by
  have h := Represents_layout plan [] [] hvalid (by simpa using hsize)
  simpa [ComputeBestTree_eq] using h

/-- The codec on a built tree: the tokenizer emits the breadth-first stream of
the plan, the decoder rebuilds the breadth-first node list from it, and that
node list realises the plan. -/
theorem TreeCodec_core (plan : TreePlan) (fuel : Nat) (hvalid : plan.valid = true)
    (hsize : plan.size < 2147483648) (hfuel : plan.size < fuel) :
    TokenizeTree fuel (ComputeBestTree plan) =
      some (TreePlan.bfsTokens (fuel - 1) [plan], TreePlan.bfsNodes (fuel - 1) 0 [plan]) ∧
    (∀ (limit : Nat) (rest : List Token), plan.size ≤ limit →
      DecodeTree (TreePlan.bfsTokens (fuel - 1) [plan] ++ rest) limit =
        .ok (TreePlan.bfsNodes (fuel - 1) 0 [plan])) ∧
    Represents (TreePlan.bfsNodes (fuel - 1) 0 [plan]) 0 plan ∧
    (TreePlan.bfsNodes (fuel - 1) 0 [plan]).length = plan.size := by
  obtain ⟨g, rfl⟩ : ∃ g, fuel = g + 1 := ⟨fuel - 1, by omega⟩
  have hv : ∀ p ∈ [plan], TreePlan.valid p = true := by
    intro p hp
    rw [List.mem_singleton.mp hp]
    exact hvalid
  have hts : TreePlan.totalSize [plan] = plan.size := by
    simp only [TreePlan.totalSize]; omega
  simp only [Nat.add_sub_cancel]
  refine ⟨?_, ?_, ?_, ?_⟩
  · have h := TokenizeLoop_bfs (ComputeBestTree plan) g [plan] [0] [] []
      (List.Forall₂.cons (Represents_ComputeBestTree plan hvalid hsize) List.Forall₂.nil)
      hv (by omega)
    simpa [TokenizeTree] using h
  · intro limit rest hlimit
    have h := DecodeLoop_bfs limit g [plan] [] rest (limit + 1) hv (by omega)
      (by simp only [List.length_nil]; omega) (by omega)
    simpa [DecodeTree, DecodeInit] using h
  · have h := Represents_bfsNodes g [plan] [] hv (by omega)
      (by simp only [List.length_nil]; omega) 0 plan (by simp)
    simpa using h
  · rw [TreePlan_bfsNodes_length g 0 [plan] (by omega), hts]

/-! ## Lemmas on the size limit of `DecodeTree` -/

theorem DecodeNode_length {s s' : DecodeState} (h : DecodeNode s = .ok s') :
    s'.tree.length = s.tree.length + 1 := by
  unfold DecodeNode at h
  split at h
  · exact Except.noConfusion h
  · split at h
    · split at h
      · exact Except.noConfusion h
      · simp only [Except.ok.injEq] at h
        rw [← h]
        simp only [List.length_append, List.length_singleton]
    · split at h
      · split at h
        · exact Except.noConfusion h
        · simp only [Except.ok.injEq] at h
          rw [← h]
          simp only [List.length_append, List.length_singleton]
      · exact Except.noConfusion h

theorem DecodeStep_ok {limit : Nat} {s s' : DecodeState}
    (h : DecodeStep limit s = .ok s') :
    s.tree.length + s.to_decode ≤ limit ∧ DecodeNode s = .ok s' := by
  unfold DecodeStep at h
  split at h
  · exact Except.noConfusion h
  · exact ⟨by omega, h⟩

theorem DecodeStep_of_le {limit : Nat} {s : DecodeState}
    (h : s.tree.length + s.to_decode ≤ limit) : DecodeStep limit s = DecodeNode s := by
  unfold DecodeStep
  rw [if_neg (by omega)]

/-- A successful iteration leaves the node list within the limit. -/
theorem DecodeStep_length {limit : Nat} {s s' : DecodeState}
    (hne : s.to_decode ≠ 0) (h : DecodeStep limit s = .ok s') :
    s'.tree.length = s.tree.length + 1 ∧ s'.tree.length ≤ limit := by
  obtain ⟨h1, h2⟩ := DecodeStep_ok h
  have h3 := DecodeNode_length h2
  omega

theorem DecodeRun_length (limit : Nat) :
    ∀ (n : Nat) (s s' : DecodeState), s.tree.length ≤ limit →
      DecodeRun limit n s = .ok s' → s'.tree.length ≤ limit := by
  intro n
  induction n with
  | zero =>
    intro s s' hs h
    simp only [DecodeRun, Except.ok.injEq] at h
    rw [← h]; exact hs
  | succ n ih =>
    intro s s' hs h
    rw [DecodeRun] at h
    split at h
    · simp only [Except.ok.injEq] at h
      rw [← h]; exact hs
    · rename_i hne
      split at h
      · exact Except.noConfusion h
      · rename_i s1 hstep
        exact ih s1 s' (DecodeStep_length hne hstep).2 h

theorem DecodeRun_count (limit : Nat) :
    ∀ (n : Nat) (s s' : DecodeState), DecodeRun limit n s = .ok s' →
      s'.to_decode ≠ 0 → s'.tree.length = s.tree.length + n := by
  intro n
  induction n with
  | zero =>
    intro s s' h _
    simp only [DecodeRun, Except.ok.injEq] at h
    rw [← h]; rfl
  | succ n ih =>
    intro s s' h hne'
    rw [DecodeRun] at h
    split at h
    · rename_i hz
      simp only [Except.ok.injEq] at h
      rw [← h] at hne'
      exact absurd hz hne'
    · rename_i hne
      split at h
      · exact Except.noConfusion h
      · rename_i s1 hstep
        have h1 := ih s1 s' h hne'
        have h2 := (DecodeStep_length hne hstep).1
        omega

/-- With enough iterations allowed, the loop is its first `fuel` iterations:
the bound on the iterations is never what stops it. -/
theorem DecodeLoop_eq_run (limit : Nat) :
    ∀ (fuel : Nat) (s : DecodeState), s.tree.length ≤ limit →
      limit < s.tree.length + fuel →
      DecodeLoop limit fuel s =
        match DecodeRun limit fuel s with
        | .error e => .error e
        | .ok s' => .ok s'.tree := by
  intro fuel
  induction fuel with
  | zero =>
    intro s h1 h2
    omega
  | succ fuel ih =>
    intro s h1 h2
    rw [DecodeLoop, DecodeRun]
    by_cases hz : s.to_decode = 0
    · simp only [if_pos hz]
    · simp only [if_neg hz]
      cases hstep : DecodeStep limit s with
      | error e => rfl
      | ok s1 =>
        have h3 := DecodeStep_length hz hstep
        exact ih s1 h3.2 (by omega)

/-- Whatever the decoder returns has at most `limit` nodes. -/
theorem DecodeLoop_length (limit : Nat) :
    ∀ (fuel : Nat) (s : DecodeState) (tree : Tree), s.tree.length ≤ limit →
      DecodeLoop limit fuel s = .ok tree → tree.length ≤ limit := by
  intro fuel
  induction fuel with
  | zero =>
    intro s tree _ h
    exact Except.noConfusion h
  | succ fuel ih =>
    intro s tree hs h
    rw [DecodeLoop] at h
    split at h
    · simp only [Except.ok.injEq] at h
      rw [← h]; exact hs
    · rename_i hne
      split at h
      · exact Except.noConfusion h
      · rename_i s1 hstep
        exact ih s1 tree (DecodeStep_length hne hstep).2 h

/-- A stream that decodes, under some limit, to more nodes than `limit` is
rejected under `limit`. -/
theorem DecodeLoop_tooLarge (limit limit' : Nat) :
    ∀ (fuel' : Nat) (s : DecodeState) (tree : Tree), s.tree.length ≤ limit →
      DecodeLoop limit' fuel' s = .ok tree → limit < tree.length →
      ∀ fuel, DecodeLoop limit fuel s = .error .tooLarge := by
  intro fuel'
  induction fuel' with
  | zero =>
    intro s tree _ h
    exact Except.noConfusion h
  | succ fuel' ih =>
    intro s tree hs h hlt fuel
    rw [DecodeLoop] at h
    split at h
    · simp only [Except.ok.injEq] at h
      rw [← h] at hlt
      omega
    · rename_i hne
      split at h
      · exact Except.noConfusion h
      · rename_i s1 hstep
        cases fuel with
        | zero => rfl
        | succ fuel =>
          rw [DecodeLoop, if_neg hne]
          obtain ⟨_, hnode⟩ := DecodeStep_ok hstep
          by_cases hc : s.tree.length + s.to_decode ≤ limit
          · have hstep2 : DecodeStep limit s = .ok s1 := by
              rw [DecodeStep_of_le hc]; exact hnode
            rw [hstep2]
            exact ih s1 tree (DecodeStep_length hne hstep2).2 h hlt fuel
          · have hstep2 : DecodeStep limit s = .error .tooLarge := by
              unfold DecodeStep
              rw [if_pos (by omega)]
            rw [hstep2]

/-! ## Lemmas on `findOffset` -/

theorem findOffset_lt {α : Type} [DecidableEq α] (x : α) (l : List α) (h : x ∈ l) :
    findOffset x l < l.length := by
  induction l with
  | nil => exact absurd h (List.not_mem_nil _)
  | cons y ys ih =>
    simp only [findOffset, List.length_cons]
    by_cases hy : y = x
    · rw [if_pos hy]; omega
    · rw [if_neg hy]
      have hx : x ∈ ys := by
        rcases List.mem_cons.mp h with h1 | h1
        · exact absurd h1.symm hy
        · exact h1
      have := ih hx
      omega

theorem findOffset_getElem? {α : Type} [DecidableEq α] (x : α) (l : List α) (h : x ∈ l) :
    l[findOffset x l]? = some x := by
  induction l with
  | nil => exact absurd h (List.not_mem_nil _)
  | cons y ys ih =>
    simp only [findOffset]
    by_cases hy : y = x
    · rw [if_pos hy, List.getElem?_cons_zero, hy]
    · rw [if_neg hy, List.getElem?_cons_succ]
      rcases List.mem_cons.mp h with h1 | h1
      · exact absurd h1.symm hy
      · exact ih h1

/-- The offset found is the first position that holds the value. -/
theorem findOffset_first {α : Type} [DecidableEq α] (x : α) (l : List α) :
    ∀ i : Nat, l[i]? = some x →
      findOffset x l ≤ i ∧ ((∀ k, k < i → l[k]? ≠ some x) → findOffset x l = i) := by
  induction l with
  | nil => intro i h; simp at h
  | cons y ys ih =>
    intro i h
    simp only [findOffset]
    by_cases hy : y = x
    · rw [if_pos hy]
      refine ⟨Nat.zero_le _, fun hfirst => ?_⟩
      cases i with
      | zero => rfl
      | succ i =>
        exact absurd (by rw [List.getElem?_cons_zero, hy]) (hfirst 0 (Nat.succ_pos _))
    · rw [if_neg hy]
      cases i with
      | zero =>
        rw [List.getElem?_cons_zero, Option.some.injEq] at h
        exact absurd h hy
      | succ i =>
        rw [List.getElem?_cons_succ] at h
        obtain ⟨h1, h2⟩ := ih i h
        refine ⟨by omega, fun hfirst => ?_⟩
        have := h2 (fun k hk => by
          have := hfirst (k + 1) (by omega)
          rwa [List.getElem?_cons_succ] at this)
        omega

/-- In a list without repetition no earlier position holds the same value. -/
theorem nodup_first {α : Type} (l : List α) (hnd : l.Nodup) (x : α) (i k : Nat)
    (hi : l[i]? = some x) (hk : k < i) : l[k]? ≠ some x := by
  intro hkx
  have hil : i < l.length := by
    by_contra hc
    rw [List.getElem?_eq_none (by omega)] at hi
    exact Option.noConfusion hi
  have hkl : k < l.length := by omega
  rw [List.getElem?_eq_getElem hil, Option.some.injEq] at hi
  rw [List.getElem?_eq_getElem hkl, Option.some.injEq] at hkx
  have := (List.Nodup.getElem_inj_iff hnd).mp (hkx.trans hi.symm)
  omega

theorem getElem?_lt_length {α : Type} {l : List α} {i : Nat} {x : α}
    (h : l[i]? = some x) : i < l.length := by
  by_contra hc
  rw [List.getElem?_eq_none (by omega)] at h
  exact Option.noConfusion h

theorem PredictorIndex_of_mem (ts : TreeSamples) (dassert : Bool) (p : Predictor)
    (h : p ∈ ts.predictors) :
    ts.PredictorIndex dassert p = .ok (findOffset p ts.predictors) := by
  have hlt := findOffset_lt p ts.predictors h
  unfold TreeSamples.PredictorIndex
  simp only []
  rw [if_neg (by omega)]

theorem PropertyIndex_of_mem (ts : TreeSamples) (dassert : Bool) (q : Nat)
    (h : q ∈ ts.props_to_use) :
    ts.PropertyIndex dassert q = .ok (findOffset q ts.props_to_use) := by
  have hlt := findOffset_lt q ts.props_to_use h
  unfold TreeSamples.PropertyIndex
  simp only []
  rw [if_neg (by omega)]

theorem PredictorFromIndex_of_getElem? (ts : TreeSamples) (dassert : Bool) (i : Nat)
    (p : Predictor) (h : ts.predictors[i]? = some p) :
    ts.PredictorFromIndex dassert i = .ok p := by
  have hlt := getElem?_lt_length h
  unfold TreeSamples.PredictorFromIndex
  rw [if_neg (fun hc => hc.2 hlt), h]

theorem PropertyFromIndex_of_getElem? (ts : TreeSamples) (dassert : Bool) (i q : Nat)
    (h : ts.props_to_use[i]? = some q) :
    ts.PropertyFromIndex dassert i = .ok q := by
  have hlt := getElem?_lt_length h
  unfold TreeSamples.PropertyFromIndex
  rw [if_neg (fun hc => hc.2 hlt), h]

/-! ## Theorems -/

/-- C1: quantisation is monotonic. For a property whose mapping table has the
`2 * 511 + 1` entries that `QuantizeProperty` indexes and is non-decreasing,
and for any two raw values `a < b` (any integers, so in particular all 32-bit
values inside or outside `[-511, 511]`), both lookups succeed and
`QuantizeProperty(prop, a) <= QuantizeProperty(prop, b)`. -/
theorem QuantizeProperty_monotone (ts : TreeSamples) (prop : Nat) (row : List Nat)
    (a b : Int)
    (hrow : ts.property_mapping[prop]? = some row)
    (hlen : row.length = 1023)
    (hmono : ∀ i j x y : Nat, i ≤ j → row[i]? = some x → row[j]? = some y → x ≤ y)
    (hab : a < b) :
    ∃ qa qb, ts.QuantizeProperty prop a = some qa ∧
      ts.QuantizeProperty prop b = some qb ∧ qa ≤ qb := by
  have hia := toSizeT_QuantizeIndex_lt a
  have hib := toSizeT_QuantizeIndex_lt b
  have hle : toSizeT (TreeSamples.QuantizeIndex a) ≤ toSizeT (TreeSamples.QuantizeIndex b) := by
    have h1 := toSizeT_QuantizeIndex a
    have h2 := toSizeT_QuantizeIndex b
    have h3 := QuantizeIndex_mono (le_of_lt hab)
    omega
  have hga : row[toSizeT (TreeSamples.QuantizeIndex a)]? =
      some (row[toSizeT (TreeSamples.QuantizeIndex a)]) :=
    List.getElem?_eq_getElem (by omega)
  have hgb : row[toSizeT (TreeSamples.QuantizeIndex b)]? =
      some (row[toSizeT (TreeSamples.QuantizeIndex b)]) :=
    List.getElem?_eq_getElem (by omega)
  refine ⟨_, _, ?_, ?_, hmono _ _ _ _ hle hga hgb⟩
  · simp only [TreeSamples.QuantizeProperty, hrow, Option.some_bind, hga]
  · simp only [TreeSamples.QuantizeProperty, hrow, Option.some_bind, hgb]

/-- Instance of C1 on `sampleStore` with `a = INT32_MIN` and `b = 700`. -/
theorem QuantizeProperty_monotone_witness :
    ∃ qa qb, sampleStore.QuantizeProperty 0 INT32_MIN = some qa ∧
      sampleStore.QuantizeProperty 0 700 = some qb ∧ qa ≤ qb :=
  QuantizeProperty_monotone sampleStore 0 sampleMapping INT32_MIN 700
    (by simp [sampleStore])
    (by simp [sampleMapping])
    (fun i j x y hij hx hy => by
      rw [sampleMapping_getElem? i x hx, sampleMapping_getElem? j y hy]
      exact Nat.div_le_div_right hij)
    (by decide)

/-- C2: round trip of the tree codec. For every tree `ComputeBestTree` builds
(from any plan of leaf and split decisions whose values fit their C++ types
and with fewer than `2^31` nodes), `TokenizeTree` returns a token stream and a
decoder tree; `DecodeTree` on that stream, with a `tree_size_limit` of at
least the number of nodes, succeeds and returns that decoder tree; and for
every property vector the decoded tree reaches a leaf with the same predictor,
offset and multiplier as the original tree (a leaf is reached whenever the
property vector covers the property ids of the tree). -/
theorem TreeCodec_roundtrip (plan : TreePlan) (fuel tree_size_limit : Nat)
    (hvalid : plan.valid = true) (hsize : plan.size < 2147483648)
    (hlimit : plan.size ≤ tree_size_limit) (hfuel : plan.size < fuel) :
    ∃ (tokens : List Token) (decoder_tree : Tree),
      TokenizeTree fuel (ComputeBestTree plan) = some (tokens, decoder_tree) ∧
      DecodeTree tokens tree_size_limit = .ok decoder_tree ∧
      ∀ (props : List Int) (steps : Nat), plan.size ≤ steps →
        Classify decoder_tree props steps 0 =
          Classify (ComputeBestTree plan) props steps 0 ∧
        (plan.propsBelow props.length = true →
          ∃ leaf, Classify (ComputeBestTree plan) props steps 0 = some leaf ∧
            Classify decoder_tree props steps 0 = some leaf) := by
  obtain ⟨htok, hdec, hrep, _⟩ := TreeCodec_core plan fuel hvalid hsize hfuel
  refine ⟨_, _, htok, ?_, ?_⟩
  · have h := hdec tree_size_limit [] hlimit
    simpa using h
  · intro props steps hsteps
    have h1 := Classify_of_Represents _ props plan 0 steps hrep hvalid hsteps
    have h2 := Classify_of_Represents _ props plan 0 steps
      (Represents_ComputeBestTree plan hvalid hsize) hvalid hsteps
    refine ⟨by rw [h1, h2], ?_⟩
    intro hprops
    have h3 := TreePlan_eval_isSome props plan hprops
    obtain ⟨leaf, hleaf⟩ := Option.isSome_iff_exists.mp h3
    exact ⟨leaf, by rw [h2, hleaf], by rw [h1, hleaf]⟩

/-- Instance of C2 on `samplePlan` (five nodes), with limit 5 and the property
vector `(9, -5)`: the stream decodes, and both trees reach the same leaf. -/
theorem TreeCodec_roundtrip_witness :
    ∃ (tokens : List Token) (decoder_tree : Tree),
      TokenizeTree 6 (ComputeBestTree samplePlan) = some (tokens, decoder_tree) ∧
      DecodeTree tokens 5 = .ok decoder_tree ∧
      ∃ leaf, Classify (ComputeBestTree samplePlan) [9, -5] 5 0 = some leaf ∧
        Classify decoder_tree [9, -5] 5 0 = some leaf :=
  match TreeCodec_roundtrip samplePlan 6 5 (by decide) (by decide) (by decide)
      (by decide) with
  | ⟨tokens, decoder_tree, h1, h2, h3⟩ =>
    ⟨tokens, decoder_tree, h1, h2, (h3 [9, -5] 5 (by decide)).2 (by decide)⟩

/-- C3: size-limit enforcement. For every token stream and every
`tree_size_limit`: a tree `DecodeTree` returns has at most `tree_size_limit`
nodes; a stream whose node structure exceeds the limit (it decodes, under some
other limit, to more than `tree_size_limit` nodes; in particular the stream of
a built tree with more nodes, whatever follows it) makes `DecodeTree` fail
with the size-limit error; after any number of iterations the node list has
at most `tree_size_limit` nodes; and `DecodeTree` is the outcome of at most
`tree_size_limit + 1` iterations of its loop. -/
theorem DecodeTree_size_limit (tokens : List Token) (tree_size_limit : Nat) :
    (∀ tree : Tree, DecodeTree tokens tree_size_limit = .ok tree →
      tree.length ≤ tree_size_limit) ∧
    (∀ (limit' : Nat) (tree : Tree), DecodeTree tokens limit' = .ok tree →
      tree_size_limit < tree.length →
      DecodeTree tokens tree_size_limit = .error .tooLarge) ∧
    (∀ (plan : TreePlan) (fuel : Nat) (stream rest : List Token) (decoder_tree : Tree),
      plan.valid = true → plan.size < 2147483648 → plan.size < fuel →
      tree_size_limit < plan.size →
      TokenizeTree fuel (ComputeBestTree plan) = some (stream, decoder_tree) →
      DecodeTree (stream ++ rest) tree_size_limit = .error .tooLarge) ∧
    (∀ (n : Nat) (s : DecodeState), DecodeIter tree_size_limit tokens n = .ok s →
      s.tree.length ≤ tree_size_limit) ∧
    DecodeTree tokens tree_size_limit =
      (match DecodeIter tree_size_limit tokens (tree_size_limit + 1) with
       | .error e => .error e
       | .ok s => .ok s.tree) := by
  refine ⟨?_, ?_, ?_, ?_, ?_⟩
  · intro tree h
    exact DecodeLoop_length tree_size_limit _ _ tree (Nat.zero_le _) h
  · intro limit' tree h hlt
    exact DecodeLoop_tooLarge tree_size_limit limit' _ _ tree (Nat.zero_le _) h hlt _
  · intro plan fuel stream rest decoder_tree hvalid hsize hfuel hlt htok
    obtain ⟨htok', hdec, _, hlen⟩ := TreeCodec_core plan fuel hvalid hsize hfuel
    rw [htok'] at htok
    simp only [Option.some.injEq, Prod.mk.injEq] at htok
    obtain ⟨hs, _⟩ := htok
    have h := hdec plan.size rest (Nat.le_refl _)
    rw [hs] at h
    exact DecodeLoop_tooLarge tree_size_limit plan.size _ _ _ (Nat.zero_le _) h
      (by rw [hlen]; exact hlt) _
  · intro n s h
    exact DecodeRun_length tree_size_limit n _ s (Nat.zero_le _) h
  · exact DecodeLoop_eq_run tree_size_limit _ _ (Nat.zero_le _)
      (by simp only [DecodeInit, List.length_nil]; omega)

/-- Instance of C3 on `sampleTokens`, a stream of three nodes: under limit 3
it decodes to a tree of at most 3 nodes, and under limit 2 decoding fails with
the size-limit error. -/
theorem DecodeTree_size_limit_witness :
    (∃ tree : Tree, DecodeTree sampleTokens 3 = .ok tree ∧ tree.length ≤ 3) ∧
    DecodeTree sampleTokens 2 = .error .tooLarge :=
  ⟨⟨[SplitNode 0 5 1 2, PropertyDecisionNode.Leaf Predictor.Zero 0 1,
      PropertyDecisionNode.Leaf Predictor.Zero 7 1], rfl,
    (DecodeTree_size_limit sampleTokens 3).1 _ rfl⟩,
   (DecodeTree_size_limit sampleTokens 2).2.1 3
     [SplitNode 0 5 1 2, PropertyDecisionNode.Leaf Predictor.Zero 0 1,
      PropertyDecisionNode.Leaf Predictor.Zero 7 1] rfl (by decide)⟩

/-- C4: for every raw value `v` (any integer, so every `int32_t` from
`INT32_MIN` to `INT32_MAX`), the index `QuantizeProperty` computes is
`clamp(v, -511, 511) + 511` with no 32-bit wrap-around, it lies in `[0, 1022]`,
`QuantizeProperty(prop, v)` is `property_mapping[prop]` read at that index, the
read succeeds whenever the table has `2 * 511 + 1 = 1023` entries, and values
beyond `+-511` quantise like the nearest bound. -/
theorem QuantizeProperty_clamp (ts : TreeSamples) (prop : Nat) (v : Int) :
    TreeSamples.QuantizeIndex v = min (max v (-511)) 511 + 511 ∧
    (0 ≤ TreeSamples.QuantizeIndex v ∧ TreeSamples.QuantizeIndex v ≤ 1022) ∧
    ts.QuantizeProperty prop v =
      (ts.property_mapping[prop]?).bind
        (fun row => row[(min (max v (-511)) 511 + 511).toNat]?) ∧
    (∀ row, ts.property_mapping[prop]? = some row → row.length = 2 * 511 + 1 →
      ∃ q, ts.QuantizeProperty prop v = some q ∧
        row[(min (max v (-511)) 511 + 511).toNat]? = some q) ∧
    (511 ≤ v → ts.QuantizeProperty prop v = ts.QuantizeProperty prop 511) ∧
    (v ≤ -511 → ts.QuantizeProperty prop v = ts.QuantizeProperty prop (-511)) := by
  have hidx : toSizeT (TreeSamples.QuantizeIndex v) =
      (min (max v (-511)) 511 + 511).toNat := by
    have h1 := toSizeT_QuantizeIndex v
    have h2 := QuantizeIndex_eq v
    omega
  have hq : ts.QuantizeProperty prop v =
      (ts.property_mapping[prop]?).bind
        (fun row => row[(min (max v (-511)) 511 + 511).toNat]?) := by
    simp only [TreeSamples.QuantizeProperty, hidx]
  refine ⟨QuantizeIndex_eq v, QuantizeIndex_range v, hq, ?_, ?_, ?_⟩
  · intro row hrow hlen
    have hlt : (min (max v (-511)) 511 + 511).toNat < row.length := by omega
    refine ⟨row[(min (max v (-511)) 511 + 511).toNat], ?_, List.getElem?_eq_getElem hlt⟩
    rw [hq, hrow, Option.some_bind, List.getElem?_eq_getElem hlt]
  · intro h
    have e : TreeSamples.QuantizeIndex v = TreeSamples.QuantizeIndex 511 := by
      rw [QuantizeIndex_eq, QuantizeIndex_eq]; omega
    simp only [TreeSamples.QuantizeProperty, e]
  · intro h
    have e : TreeSamples.QuantizeIndex v = TreeSamples.QuantizeIndex (-511) := by
      rw [QuantizeIndex_eq, QuantizeIndex_eq]; omega
    simp only [TreeSamples.QuantizeProperty, e]

/-- Instance of C4 on `sampleStore` at `v = INT32_MAX`: the lookup succeeds
and reads the entry at index `clamp(v, -511, 511) + 511`. -/
theorem QuantizeProperty_clamp_witness :
    ∃ q, sampleStore.QuantizeProperty 0 INT32_MAX = some q ∧
      sampleMapping[(min (max INT32_MAX (-511)) 511 + 511).toNat]? = some q :=
  (QuantizeProperty_clamp sampleStore 0 INT32_MAX).2.2.2.1 sampleMapping
    (by simp [sampleStore]) (by simp [sampleMapping])

/-- C5: `AllSamplesDone` empties the deduplication table and leaves every other
member, hence every accessor (`NumSamples`, `NumDistinctSamples`, `Count`,
`Token`, `NBits`, `Property`) and the predictor, property, quantisation and
decompaction tables, as they were; a second call changes nothing. -/
theorem AllSamplesDone_frame (ts : TreeSamples) :
    ts.AllSamplesDone.dedup_table_ = [] ∧
    ts.AllSamplesDone.NumSamples = ts.NumSamples ∧
    ts.AllSamplesDone.NumDistinctSamples = ts.NumDistinctSamples ∧
    (∀ i, ts.AllSamplesDone.Count i = ts.Count i) ∧
    (∀ p i, ts.AllSamplesDone.Token p i = ts.Token p i) ∧
    (∀ p i, ts.AllSamplesDone.NBits p i = ts.NBits p i) ∧
    (∀ k i, ts.AllSamplesDone.Property k i = ts.Property k i) ∧
    ts.AllSamplesDone.predictors = ts.predictors ∧
    ts.AllSamplesDone.props_to_use = ts.props_to_use ∧
    ts.AllSamplesDone.property_mapping = ts.property_mapping ∧
    ts.AllSamplesDone.compact_properties = ts.compact_properties ∧
    ts.AllSamplesDone.residuals = ts.residuals ∧
    ts.AllSamplesDone.sample_counts = ts.sample_counts ∧
    ts.AllSamplesDone.props = ts.props ∧
    ts.AllSamplesDone.num_samples = ts.num_samples ∧
    ts.AllSamplesDone.AllSamplesDone = ts.AllSamplesDone :=
  ⟨rfl, rfl, rfl, fun _ => rfl, fun _ _ => rfl, fun _ _ => rfl, fun _ _ => rfl,
    rfl, rfl, rfl, rfl, rfl, rfl, rfl, rfl, rfl⟩

/-- C6, as stated, fails: on `sampleStore` property 0 has
`NumPropertyValues = 2`, bucket `q = 1` is below it, and
`UnquantizeProperty(0, 1)` stops at its assertion. -/
theorem UnquantizeProperty_last_bucket_asserts :
    sampleStore.NumPropertyValues 0 = some 2 ∧ (1 : Nat) < 2 ∧
    sampleStore.UnquantizeProperty 0 1 = .error Fault.assertion := by
  refine ⟨rfl, by decide, rfl⟩

/-- C6, amended: the reverse table covers every bucket but the last. For every
property index `k` with decompaction table `row`, `NumPropertyValues(k)` is
`row.size() + 1`; for every `q` with `q + 1 < NumPropertyValues(k)`,
`UnquantizeProperty(k, q)` returns the stored value `row[q]` without hitting
its assertion; for every other `q` (so for the last bucket
`q = NumPropertyValues(k) - 1`) the assertion fails. -/
theorem UnquantizeProperty_covers (ts : TreeSamples) (k q : Nat) (row : List Int)
    (hrow : ts.compact_properties[k]? = some row) :
    ts.NumPropertyValues k = some (row.length + 1) ∧
    (q + 1 < row.length + 1 →
      ∃ x, row[q]? = some x ∧ ts.UnquantizeProperty k q = .ok x) ∧
    (¬ q + 1 < row.length + 1 →
      ts.UnquantizeProperty k q = .error Fault.assertion) := by
  refine ⟨by simp [TreeSamples.NumPropertyValues, hrow], ?_, ?_⟩
  · intro hq
    have hlt : q < row.length := by omega
    refine ⟨row[q], List.getElem?_eq_getElem hlt, ?_⟩
    simp [TreeSamples.UnquantizeProperty, hrow, hlt]
  · intro hq
    have hlt : ¬ q < row.length := by omega
    simp [TreeSamples.UnquantizeProperty, hrow, hlt]

/-- Instance of the amended C6 on `sampleStore`, property 0: bucket 0 is
un-quantised to the stored value, bucket 1 (the last) stops at the
assertion. -/
theorem UnquantizeProperty_covers_witness :
    (∃ x, [(-7 : Int)][0]? = some x ∧ sampleStore.UnquantizeProperty 0 0 = .ok x) ∧
    sampleStore.UnquantizeProperty 0 1 = .error Fault.assertion :=
  ⟨(UnquantizeProperty_covers sampleStore 0 0 [-7] rfl).2.1 (by decide),
   (UnquantizeProperty_covers sampleStore 0 1 [-7] rfl).2.2 (by decide)⟩

/-- C7: for every property index `k` with decompaction table `row`,
`NumPropertyValues(k)` is the number of entries of `row` plus one, which is at
least 1, and it is exactly 1 when `row` is empty. -/
theorem NumPropertyValues_single_bucket (ts : TreeSamples) (k : Nat) (row : List Int)
    (hrow : ts.compact_properties[k]? = some row) :
    (∃ n, ts.NumPropertyValues k = some n ∧ 1 ≤ n ∧ n = row.length + 1) ∧
    (row = [] → ts.NumPropertyValues k = some 1) := by
  have h : ts.NumPropertyValues k = some (row.length + 1) := by
    simp [TreeSamples.NumPropertyValues, hrow]
  refine ⟨⟨row.length + 1, h, by omega, rfl⟩, ?_⟩
  intro he
  rw [h, he]
  rfl

/-- Instance of C7 on `emptyStore`, whose only property has an empty
decompaction table: it has exactly one bucket. -/
theorem NumPropertyValues_single_bucket_witness :
    emptyStore.NumPropertyValues 0 = some 1 :=
  (NumPropertyValues_single_bucket emptyStore 0 [] rfl).2 rfl

/-- C8: `Leaf(predictor, offset, multiplier)` is a leaf (`property = -1`)
carrying exactly that predictor, offset and multiplier, with `splitval`,
`lchild` and `rchild` all 0; with the default arguments the offset is 0 and the
multiplier 1, and `Leaf(Predictor::Zero)` is the default-constructed node. -/
theorem Leaf_fields (predictor : Predictor) (offset : Int) (multiplier : Nat) :
    (PropertyDecisionNode.Leaf predictor offset multiplier).property = -1 ∧
    (PropertyDecisionNode.Leaf predictor offset multiplier).predictor = predictor ∧
    (PropertyDecisionNode.Leaf predictor offset multiplier).predictor_offset = offset ∧
    (PropertyDecisionNode.Leaf predictor offset multiplier).multiplier = multiplier ∧
    (PropertyDecisionNode.Leaf predictor offset multiplier).splitval = 0 ∧
    (PropertyDecisionNode.Leaf predictor offset multiplier).lchild = 0 ∧
    (PropertyDecisionNode.Leaf predictor offset multiplier).rchild = 0 ∧
    PropertyDecisionNode.LeafDefault predictor =
      PropertyDecisionNode.Leaf predictor 0 1 ∧
    PropertyDecisionNode.LeafDefault Predictor.Zero = PropertyDecisionNode.default :=
  ⟨rfl, rfl, rfl, rfl, rfl, rfl, rfl, rfl, rfl⟩

/-- C9, as stated, fails where the right child is omitted: `INT32_MAX` is a
non-negative `int` child index, and in `Split(0, 0, INT32_MAX)` the sum
`lchild + 1` does not fit an `int`, so the call has undefined behaviour and
yields no node with `rchild = l + 1`. -/
theorem Split_default_overflows :
    (0 : Int) ≤ INT32_MAX ∧
    PropertyDecisionNode.SplitDefault 0 0 INT32_MAX = .error Fault.signedOverflow := by
  refine ⟨by decide, rfl⟩

/-- C9, amended. For a property id `p` in `[0, 32767]`, a 32-bit threshold `s`
and non-negative `int` child indices `l`, `r`, `Split(p, s, l, r)` returns a
node with `property = p`, `splitval = s`, `lchild = l`, `rchild = r` and the
neutral leaf payload (predictor Zero, offset 0, multiplier 1); with the right
child omitted and `l < INT32_MAX`, it returns the same node with
`rchild = l + 1`; with the right child omitted and `l = INT32_MAX`, the `int`
sum `lchild + 1` overflows and no node is returned. -/
theorem Split_fields (p s l r : Int)
    (hp0 : 0 ≤ p) (hp1 : p ≤ 32767) (hs0 : INT32_MIN ≤ s) (hs1 : s ≤ INT32_MAX)
    (hl0 : 0 ≤ l) (hl1 : l ≤ INT32_MAX) (hr0 : 0 ≤ r) (hr1 : r ≤ INT32_MAX) :
    PropertyDecisionNode.Split p s l r =
      .ok { splitval := s, property := p, lchild := l.toNat, rchild := r.toNat,
            predictor := Predictor.Zero, predictor_offset := 0, multiplier := 1 } ∧
    (l < INT32_MAX → PropertyDecisionNode.SplitDefault p s l =
      .ok { splitval := s, property := p, lchild := l.toNat, rchild := l.toNat + 1,
            predictor := Predictor.Zero, predictor_offset := 0, multiplier := 1 }) ∧
    (l = INT32_MAX →
      PropertyDecisionNode.SplitDefault p s l = .error Fault.signedOverflow) := by
  unfold INT32_MIN at hs0
  unfold INT32_MAX at hs1 hl1 hr1 ⊢
  have hr : r ≠ -1 := by omega
  have e1 : toInt16 p = p := by unfold toInt16; omega
  have e2 : toInt32 s = s := by unfold toInt32; omega
  have e3 : toUInt32 l = l.toNat := by unfold toUInt32; omega
  have e4 : toUInt32 r = r.toNat := by unfold toUInt32; omega
  refine ⟨?_, ?_, ?_⟩
  · simp only [PropertyDecisionNode.Split, PropertyDecisionNode.init, if_neg hr,
      e1, e2, e3, e4]
  · intro hlt
    have e5 : toUInt32 (l + 1) = l.toNat + 1 := by unfold toUInt32; omega
    have e6 : toInt32 (l + 1) = l + 1 := by unfold toInt32; omega
    simp only [PropertyDecisionNode.SplitDefault, PropertyDecisionNode.Split,
      PropertyDecisionNode.init, if_true, if_pos e6, e1, e2, e3, e5]
  · intro heq
    have e6 : ¬ toInt32 (l + 1) = l + 1 := by unfold toInt32; omega
    simp only [PropertyDecisionNode.SplitDefault, PropertyDecisionNode.Split, if_true,
      if_neg e6]

/-- Instance of the amended C9 at `Split(32767, INT32_MIN, 0, INT32_MAX)`,
`Split(32767, INT32_MIN, 0)` and `Split(32767, INT32_MIN, INT32_MAX)`. -/
theorem Split_fields_witness :
    PropertyDecisionNode.Split 32767 INT32_MIN 0 INT32_MAX =
      .ok { splitval := INT32_MIN, property := 32767, lchild := (0 : Int).toNat,
            rchild := INT32_MAX.toNat,
            predictor := Predictor.Zero, predictor_offset := 0, multiplier := 1 } ∧
    PropertyDecisionNode.SplitDefault 32767 INT32_MIN 0 =
      .ok { splitval := INT32_MIN, property := 32767, lchild := (0 : Int).toNat,
            rchild := (0 : Int).toNat + 1,
            predictor := Predictor.Zero, predictor_offset := 0, multiplier := 1 } ∧
    PropertyDecisionNode.SplitDefault 32767 INT32_MIN INT32_MAX =
      .error Fault.signedOverflow :=
  ⟨(Split_fields 32767 INT32_MIN 0 INT32_MAX (by decide) (by decide) (by decide)
      (by decide) (by decide) (by decide) (by decide) (by decide)).1,
   (Split_fields 32767 INT32_MIN 0 INT32_MAX (by decide) (by decide) (by decide)
      (by decide) (by decide) (by decide) (by decide) (by decide)).2.1 (by decide),
   (Split_fields 32767 INT32_MIN INT32_MAX 0 (by decide) (by decide) (by decide)
      (by decide) (by decide) (by decide) (by decide) (by decide)).2.2 rfl⟩

/-- C10: a field never counts more values than its width allows. For every
width `bits < 32`, every starting offset `total_bits` and every sequence of
APIC ids passed to `Field::AddValue`, `NumValues() <= 2^bits`, and a zero-width
field reports exactly 1 once at least one id was added. Hence, whenever
`Detect` returns true for widths below 32, `cores_per_package <= 2^core_bits`,
`logical_per_core <= 2^logical_bits` and `packages <= 256`; and `Detect` does
return true with a topology when every pin and the final restore succeed. -/
theorem Field_NumValues_bound (bits total_bits : Nat) (ids : List Nat)
    (hbits : bits < 32) :
    (ids.foldl X64_Topology.Field.AddValue
      (X64_Topology.Field.init bits total_bits).1).NumValues ≤ 2 ^ bits ∧
    (bits = 0 → ids ≠ [] →
      (ids.foldl X64_Topology.Field.AddValue
        (X64_Topology.Field.init bits total_bits).1).NumValues = 1) ∧
    (∀ (legacy_amd restored : Bool) (core_bits logical_bits : Nat)
        (cpus : List (Option Nat)) (t : ProcessorTopology),
      core_bits < 32 → logical_bits < 32 →
      X64_Topology.Detect legacy_amd core_bits logical_bits cpus restored =
        .ok (some t) →
      t.cores_per_package ≤ 2 ^ core_bits ∧ t.logical_per_core ≤ 2 ^ logical_bits ∧
        t.packages ≤ 256) ∧
    (∀ core_bits logical_bits : Nat, ∃ t,
      X64_Topology.Detect false core_bits logical_bits (ids.map some) true =
        .ok (some t)) := by
  refine ⟨Field_foldl_le bits total_bits ids hbits, ?_, ?_, ?_⟩
  · intro hz hne
    have hle := Field_foldl_le bits total_bits ids hbits
    obtain ⟨_, _, h3⟩ := FieldInv_foldl ids _ (Field_init_inv bits total_bits)
    have hpos : 0 < (ids.foldl X64_Topology.Field.AddValue
        (X64_Topology.Field.init bits total_bits).1).NumValues :=
      List.length_pos.mpr (h3 hne)
    rw [hz] at hle hpos ⊢
    simp only [pow_zero] at hle
    omega
  · intro legacy_amd restored core_bits logical_bits cpus t hc hl h
    exact Detect_bounds legacy_amd restored core_bits logical_bits cpus t hc hl h
  · intro core_bits logical_bits
    rw [Detect_not_legacy, DetectLoop_all_pinned]
    exact ⟨_, rfl⟩

/-- Instance of C10: a 1-bit field at offset 2 fed the ids 0, 4, 8, 12 holds at
most 2 values; a zero-width field fed the same ids reports 1; and on a machine
with `core_bits = 1`, `logical_bits = 1` whose four processors report the ids
0, 1, 2, 3, `Detect` reports 2 logical processors per core, 2 cores per
package and 1 package, within the bounds. -/
theorem Field_NumValues_bound_witness :
    ([0, 4, 8, 12].foldl X64_Topology.Field.AddValue
      (X64_Topology.Field.init 1 2).1).NumValues ≤ 2 ^ 1 ∧
    ([0, 4, 8, 12].foldl X64_Topology.Field.AddValue
      (X64_Topology.Field.init 0 2).1).NumValues = 1 ∧
    ((2 : Nat) ≤ 2 ^ 1 ∧ (2 : Nat) ≤ 2 ^ 1 ∧ (1 : Nat) ≤ 256) ∧
    (∃ t, X64_Topology.Detect false 1 1 ([0, 1, 2, 3].map some) true = .ok (some t)) :=
  ⟨(Field_NumValues_bound 1 2 [0, 4, 8, 12] (by decide)).1,
   (Field_NumValues_bound 0 2 [0, 4, 8, 12] (by decide)).2.1 rfl (by decide),
   (Field_NumValues_bound 0 0 [] (by decide)).2.2.1 false true 1 1
     ([0, 1, 2, 3].map some) ⟨2, 2, 1⟩ (by decide) (by decide) (by rfl),
   (Field_NumValues_bound 0 0 [0, 1, 2, 3] (by decide)).2.2.2 1 1⟩

/-- C11, as stated, fails in its converse half: in `repeatStore` position 2 is
below `NumPredictors()` and `NumProperties()`, but it holds the element that
position 0 holds, so looking that element up gives 0, not 2 (with or without
the debug assertions). -/
theorem Index_of_repeated_element :
    (2 < repeatStore.NumPredictors ∧
      repeatStore.PredictorFromIndex false 2 = .ok Predictor.Zero ∧
      repeatStore.PredictorIndex false Predictor.Zero = .ok 0 ∧
      repeatStore.PredictorFromIndex true 2 = .ok Predictor.Zero ∧
      repeatStore.PredictorIndex true Predictor.Zero = .ok 0) ∧
    (2 < repeatStore.NumProperties ∧
      repeatStore.PropertyFromIndex false 2 = .ok 5 ∧
      repeatStore.PropertyIndex false 5 = .ok 0 ∧
      repeatStore.PropertyFromIndex true 2 = .ok 5 ∧
      repeatStore.PropertyIndex true 5 = .ok 0) ∧
    (0 : Nat) ≠ 2 := by
  refine ⟨⟨by decide, rfl, rfl, rfl, rfl⟩, ⟨by decide, rfl, rfl, rfl, rfl⟩, by decide⟩

/-- C11, amended. For every predictor `p` contained in the predictor list,
`PredictorIndex(p) < NumPredictors()` and
`PredictorFromIndex(PredictorIndex(p)) = p`; likewise for every property id
contained in the property list. Conversely, for every `i < NumPredictors()`,
`PredictorIndex(PredictorFromIndex(i))` is the first position that holds that
predictor: it is at most `i`, and it is `i` when no earlier position holds the
same predictor, in particular when the list has no repeated element (and the
same for properties). All of this holds with the debug assertions compiled in
or out, and no assertion fails. -/
theorem Index_inverse (ts : TreeSamples) (dassert : Bool) :
    (∀ p ∈ ts.predictors, ∃ i, ts.PredictorIndex dassert p = .ok i ∧
      i < ts.NumPredictors ∧ ts.PredictorFromIndex dassert i = .ok p) ∧
    (∀ q ∈ ts.props_to_use, ∃ i, ts.PropertyIndex dassert q = .ok i ∧
      i < ts.NumProperties ∧ ts.PropertyFromIndex dassert i = .ok q) ∧
    (∀ i, i < ts.NumPredictors → ∃ p j, ts.PredictorFromIndex dassert i = .ok p ∧
      ts.PredictorIndex dassert p = .ok j ∧ j ≤ i ∧
      ((∀ k, k < i → ts.predictors[k]? ≠ some p) → j = i) ∧
      (ts.predictors.Nodup → j = i)) ∧
    (∀ i, i < ts.NumProperties → ∃ q j, ts.PropertyFromIndex dassert i = .ok q ∧
      ts.PropertyIndex dassert q = .ok j ∧ j ≤ i ∧
      ((∀ k, k < i → ts.props_to_use[k]? ≠ some q) → j = i) ∧
      (ts.props_to_use.Nodup → j = i)) := by
  refine ⟨?_, ?_, ?_, ?_⟩
  · intro p hp
    exact ⟨findOffset p ts.predictors, PredictorIndex_of_mem ts dassert p hp,
      findOffset_lt p ts.predictors hp,
      PredictorFromIndex_of_getElem? ts dassert _ p (findOffset_getElem? p ts.predictors hp)⟩
  · intro q hq
    exact ⟨findOffset q ts.props_to_use, PropertyIndex_of_mem ts dassert q hq,
      findOffset_lt q ts.props_to_use hq,
      PropertyFromIndex_of_getElem? ts dassert _ q
        (findOffset_getElem? q ts.props_to_use hq)⟩
  · intro i hi
    have hget : ts.predictors[i]? = some ts.predictors[i] := List.getElem?_eq_getElem hi
    obtain ⟨h1, h2⟩ := findOffset_first ts.predictors[i] ts.predictors i hget
    exact ⟨ts.predictors[i], findOffset ts.predictors[i] ts.predictors,
      PredictorFromIndex_of_getElem? ts dassert i _ hget,
      PredictorIndex_of_mem ts dassert _ (List.getElem_mem _),
      h1, h2, fun hnd => h2 (fun k hk => nodup_first ts.predictors hnd _ i k hget hk)⟩
  · intro i hi
    have hget : ts.props_to_use[i]? = some ts.props_to_use[i] :=
      List.getElem?_eq_getElem hi
    obtain ⟨h1, h2⟩ := findOffset_first ts.props_to_use[i] ts.props_to_use i hget
    exact ⟨ts.props_to_use[i], findOffset ts.props_to_use[i] ts.props_to_use,
      PropertyFromIndex_of_getElem? ts dassert i _ hget,
      PropertyIndex_of_mem ts dassert _ (List.getElem_mem _),
      h1, h2, fun hnd => h2 (fun k hk => nodup_first ts.props_to_use hnd _ i k hget hk)⟩

/-- Instance of the amended C11. In `repeatStore` the predictor with tag 3 is
found at position 1, which reads back as that predictor; property id 2
likewise. In `sampleStore`, whose lists have no repetition, position 0 reads
back and is found again at position 0. -/
theorem Index_inverse_witness :
    (∃ i, repeatStore.PredictorIndex true (Predictor.other 3) = .ok i ∧
      i < repeatStore.NumPredictors ∧
      repeatStore.PredictorFromIndex true i = .ok (Predictor.other 3)) ∧
    (∃ i, repeatStore.PropertyIndex true 2 = .ok i ∧
      i < repeatStore.NumProperties ∧
      repeatStore.PropertyFromIndex true i = .ok 2) ∧
    (∃ p j, sampleStore.PredictorFromIndex true 0 = .ok p ∧
      sampleStore.PredictorIndex true p = .ok j ∧ j = 0) ∧
    (∃ q j, sampleStore.PropertyFromIndex true 0 = .ok q ∧
      sampleStore.PropertyIndex true q = .ok j ∧ j = 0) :=
  ⟨(Index_inverse repeatStore true).1 (Predictor.other 3) (by decide),
   (Index_inverse repeatStore true).2.1 2 (by decide),
   match (Index_inverse sampleStore true).2.2.1 0 (by decide) with
   | ⟨p, j, h1, h2, _, _, h5⟩ => ⟨p, j, h1, h2, h5 (by decide)⟩,
   match (Index_inverse sampleStore true).2.2.2 0 (by decide) with
   | ⟨q, j, h1, h2, _, _, h5⟩ => ⟨q, j, h1, h2, h5 (by decide)⟩⟩

/-- C12, as stated, fails: 65535 is a non-negative `int`, and
`Split(65535, 0, 1, 2)` returns a node with `property = -1`, the mark of a
leaf, because the member is an `int16_t`. -/
theorem Split_65535_is_leaf :
    (0 : Int) ≤ 65535 ∧
    ∃ node, PropertyDecisionNode.Split 65535 0 1 2 = .ok node ∧ node.property = -1 :=
  ⟨by decide, _, rfl, by decide⟩

/-- C12, amended. For every non-negative property id `p` (an `int` argument)
and every threshold and child indices, `Split(p, ...)` returns a node unless
the right child is omitted (`r = -1`) and `lchild + 1` does not fit an `int`
(then the behaviour is undefined); the node returned has `property = -1` exactly when the low 16 bits of `p` are
all ones (`p mod 65536 = 65535`); so for every `p` in `[0, 65534]` the property
field differs from -1, and for every `p` in `[0, 32767]` it is `p`. -/
theorem Split_property_leaf_iff (p s l r : Int) (hp : 0 ≤ p) :
    ((r ≠ -1 ∨ (INT32_MIN ≤ l + 1 ∧ l + 1 ≤ INT32_MAX)) →
      ∃ node, PropertyDecisionNode.Split p s l r = .ok node) ∧
    (¬ (r ≠ -1 ∨ (INT32_MIN ≤ l + 1 ∧ l + 1 ≤ INT32_MAX)) →
      PropertyDecisionNode.Split p s l r = .error Fault.signedOverflow) ∧
    (∀ node, PropertyDecisionNode.Split p s l r = .ok node →
      (node.property = -1 ↔ p % 65536 = 65535) ∧
      (p ≤ 65534 → node.property ≠ -1) ∧
      (p ≤ 32767 → node.property = p)) := by
  refine ⟨?_, ?_, ?_⟩
  · intro h
    unfold PropertyDecisionNode.Split
    by_cases hr : r = -1
    · have e6 : toInt32 (l + 1) = l + 1 := by
        rcases h with h | h
        · exact absurd hr h
        · unfold INT32_MIN INT32_MAX at h
          unfold toInt32
          omega
      rw [if_pos hr, if_pos e6]
      exact ⟨_, rfl⟩
    · rw [if_neg hr]
      exact ⟨_, rfl⟩
  · intro h
    have hr : r = -1 := by
      by_contra hc
      exact h (Or.inl hc)
    have e6 : ¬ toInt32 (l + 1) = l + 1 := by
      intro hc
      apply h
      right
      unfold INT32_MIN INT32_MAX
      unfold toInt32 at hc
      omega
    unfold PropertyDecisionNode.Split
    rw [if_pos hr, if_neg e6]
  · intro node hnode
    have e : node.property = toInt16 p := by
      unfold PropertyDecisionNode.Split at hnode
      split at hnode
      · split at hnode
        · simp only [Except.ok.injEq] at hnode
          rw [← hnode]; rfl
        · exact Except.noConfusion hnode
      · simp only [Except.ok.injEq] at hnode
        rw [← hnode]; rfl
    rw [e]
    unfold toInt16
    refine ⟨⟨fun h => by omega, fun h => by omega⟩, fun h => by omega, fun h => by omega⟩

/-- Instance of the amended C12 at `Split(65534, -3, 4, 9)`: a node is
returned and its property field is not -1. -/
theorem Split_property_leaf_iff_witness :
    ∃ node, PropertyDecisionNode.Split 65534 (-3) 4 9 = .ok node ∧ node.property ≠ -1 :=
  match (Split_property_leaf_iff 65534 (-3) 4 9 (by decide)).1 (Or.inl (by decide)) with
  | ⟨node, h⟩ =>
    ⟨node, h, ((Split_property_leaf_iff 65534 (-3) 4 9 (by decide)).2.2 node h).2.1
      (by decide)⟩

end jxl
